import Mathlib

/-!
Shallow embedding of `pkg/engine/plan/type_field_extractor.go` from
`graphql-go-tools`: the `TypeFieldExtractor` that computes root and child
`TypeField` configurations from a GraphQL type-system document.

The extractor itself (`GetAllNodes`, `getAllRootNodes`, `getAllChildNodes`,
`findChildNodesForType`, `addChildTypeFieldName`, `addRootNodes`,
`baseSchema`, `isEntity`) is translated from the source file.  The `ast`
navigator and the print/parse/merge collaborators live in packages of the
repository that are not part of the extractor source; they are modelled
from the specification's interface contracts (see the doc comments below).

The recursive child walk of the source terminates because `(type, field)`
pairs are registered at most once.  We embed it as an explicit-stack loop
(`walkFuel`), structurally recursive on a fuel argument, together with a
computable potential `phi` that bounds the number of loop steps; the total
function `findChildNodesForType` runs the loop with fuel `phi + 1`.
Each stack frame `(typeName, k)` stands for the source recursion's
activation of `findChildNodesForType typeName` about to process the `k`-th
field definition of that type; pushing a frame is the recursive call made
after a successful `addChildTypeFieldName`.
-/

namespace Plan

/-- `federationKeyDirectiveName` from the source. -/
def federationKeyDirectiveName : String := "key"

/-- `federationRequireDirectiveName` from the source. -/
def federationRequireDirectiveName : String := "requires"

/-- `federationExternalDirectiveName` from the source. -/
def federationExternalDirectiveName : String := "external"

/-- Modelled from the spec: a field definition of the type-system AST
(package `ast`, not under `src/`), reduced to what the Schema Navigator
exposes: its name, the name of its declared return type (the named type
after unwrapping list/non-null wrappers), and the names of its directives. -/
structure FieldDefinition where
  name : String
  typeName : String
  directives : List String
deriving DecidableEq

/-- Kind of a top-level AST node; the extractor only distinguishes object
type definitions, object type extensions, and everything else. -/
inductive NodeKind
  | objectTypeDefinition
  | objectTypeExtension
  | other
deriving DecidableEq

/-- Modelled from the spec: a top-level type-system AST node as seen
through the Schema Navigator: its kind, name, the references of its field
definitions (indices into `Document.fieldDefinitions`), and the names of
the directives attached to it. -/
structure Node where
  kind : NodeKind
  name : String
  fieldRefs : List Nat
  directives : List String
deriving DecidableEq

/-- Modelled from the spec: an `ast.Document` reduced to what the
extractor consumes: the pool of field definitions, the list of top-level
root nodes, and the root-operation-type names recorded in the document's
index (consulted via `Index.IsRootOperationTypeNameString`). -/
structure Document where
  fieldDefinitions : List FieldDefinition
  rootNodes : List Node
  rootOperationTypeNames : List String
deriving DecidableEq

/-- The zero value a field-definition reference resolves to when it is out
of range; reference `0` of a document with at least one field definition
resolves to that definition, mirroring Go slice indexing with the zero
value of `int` as the map-miss default. -/
def defaultFieldDefinition : FieldDefinition :=
  { name := "", typeName := "", directives := [] }

/-- The field definition a reference denotes. -/
def fieldDefinitionAt (d : Document) (ref : Nat) : FieldDefinition :=
  d.fieldDefinitions.getD ref defaultFieldDefinition

/-- `r.document.FieldDefinitionNameString(fieldRef)`. -/
def FieldDefinitionNameString (d : Document) (ref : Nat) : String :=
  (fieldDefinitionAt d ref).name

/-- `r.document.NodeNameString(r.document.FieldDefinitionTypeNode(fieldRef))`:
the name of the declared return type of a field definition. -/
def FieldDefinitionTypeNodeName (d : Document) (ref : Nat) : String :=
  (fieldDefinitionAt d ref).typeName

/-- `r.document.FieldDefinitionHasNamedDirective(fieldRef, directive)`. -/
def FieldDefinitionHasNamedDirective (d : Document) (ref : Nat) (directive : String) : Bool :=
  (fieldDefinitionAt d ref).directives.contains directive

/-- Modelled from the spec: `r.document.Index.FirstNodeByNameStr(name)`.
Per the source comment ("the service SDL itself might use
ObjectTypeExtension types which will not be indexed"), object type
extension nodes are not registered in the index, so the lookup returns the
first non-extension top-level node carrying the name. -/
def FirstNodeByNameStr (d : Document) (name : String) : Option Node :=
  d.rootNodes.find? fun n =>
    !(n.kind == NodeKind.objectTypeExtension) && n.name == name

/-- `r.document.NodeFieldDefinitions(node)`. -/
def NodeFieldDefinitions (_d : Document) (node : Node) : List Nat :=
  node.fieldRefs

/-- `r.document.NodeNameString(node)`. -/
def NodeNameString (_d : Document) (node : Node) : String :=
  node.name

/-- `r.document.NodeDirectives(node)`. -/
def NodeDirectives (_d : Document) (node : Node) : List String :=
  node.directives

/-- `document.Index.IsRootOperationTypeNameString(typeName)`. -/
def IsRootOperationTypeNameString (d : Document) (name : String) : Bool :=
  d.rootOperationTypeNames.contains name

/-- Modelled from the spec: the external collaborators the `baseSchema`
pipeline round-trips through (`astprinter.PrintString`,
`federation.BuildBaseSchemaDocument`,
`astparser.ParseGraphqlDocumentString`,
`asttransform.MergeDefinitionWithBaseSchema`), each a text-in/value-out
transform that can fail; failure is `none`. -/
structure Externals where
  printString : Document → Option String
  buildBaseSchemaDocument : String → Option String
  parseGraphqlDocumentString : String → Option Document
  mergeDefinitionWithBaseSchema : Document → Option Document

/-- `TypeField` from the plan package: a type name together with the field
names discovered for it. -/
structure TypeField where
  TypeName : String
  FieldNames : List String
deriving DecidableEq

/-- `(r *TypeFieldExtractor) baseSchema()`: print the document, synthesize
the federation base schema, re-parse, merge with the base schema
definitions, re-print and re-parse; any failure yields `nil` (`none`). -/
def baseSchema (e : Externals) (d : Document) : Option Document :=
  match e.printString d with
  | none => none
  | some schemaSDL =>
    match e.buildBaseSchemaDocument schemaSDL with
    | none => none
    | some baseSchemaSDL =>
      match e.parseGraphqlDocumentString baseSchemaSDL with
      | none => none
      | some document =>
        match e.mergeDefinitionWithBaseSchema document with
        | none => none
        | some merged =>
          match e.printString merged with
          | none => none
          | some mergedSDL =>
            match e.parseGraphqlDocumentString mergedSDL with
            | none => none
            | some mergedDocument => some mergedDocument

/-- `(r *TypeFieldExtractor) isEntity(astNode)`: true iff some directive on
the node is named `key`. -/
def isEntity (d : Document) (astNode : Node) : Bool :=
  (NodeDirectives d astNode).any fun dn => dn == federationKeyDirectiveName

/-- The field-name list built by the loop in `addRootNodes`: the names of
the node's field definitions, skipping every field that carries an
`external` directive. -/
def nonExternalFieldNames (d : Document) (astNode : Node) : List String :=
  (NodeFieldDefinitions d astNode).filterMap fun fieldRef =>
    if FieldDefinitionHasNamedDirective d fieldRef federationExternalDirectiveName then none
    else some (FieldDefinitionNameString d fieldRef)

/-- `(r *TypeFieldExtractor) addRootNodes(astNode, &rootNodes)`: build the
base schema, keep the node only if it is an entity or its name is a
root-operation-type name of the merged document, collect its non-external
field names, and append a `TypeField` unless that list is empty. -/
def addRootNodes (e : Externals) (d : Document) (astNode : Node)
    (rootNodes : List TypeField) : List TypeField :=
  let typeName := NodeNameString d astNode
  let document := baseSchema e d
  if !isEntity d astNode &&
      (match document with
       | none => true
       | some doc => !IsRootOperationTypeNameString doc typeName) then
    rootNodes
  else
    let fieldNames := nonExternalFieldNames d astNode
    if fieldNames.isEmpty then
      rootNodes
    else
      rootNodes ++ [{ TypeName := typeName, FieldNames := fieldNames }]

/-- `(r *TypeFieldExtractor) getAllRootNodes()`: fold `addRootNodes` over
the top-level nodes of object type definition or extension kind. -/
def getAllRootNodes (e : Externals) (d : Document) : List TypeField :=
  d.rootNodes.foldl
    (fun rootNodes astNode =>
      match astNode.kind with
      | NodeKind.objectTypeExtension => addRootNodes e d astNode rootNodes
      | NodeKind.objectTypeDefinition => addRootNodes e d astNode rootNodes
      | NodeKind.other => rootNodes)
    []

/-- `(r *TypeFieldExtractor) addChildTypeFieldName(typeName, fieldName,
&childNodes)`: find the record for `typeName`; if it already lists
`fieldName` return `false`, else append the name and return `true`; if no
record exists, append a fresh one and return `true`. -/
def addChildTypeFieldName (typeName fieldName : String) :
    List TypeField → Bool × List TypeField
  | [] => (true, [{ TypeName := typeName, FieldNames := [fieldName] }])
  | tf :: rest =>
    if tf.TypeName == typeName then
      if tf.FieldNames.contains fieldName then
        (false, tf :: rest)
      else
        (true, { tf with FieldNames := tf.FieldNames ++ [fieldName] } :: rest)
    else
      let r := addChildTypeFieldName typeName fieldName rest
      (r.1, tf :: r.2)

/-- Whether the accumulator already lists `fieldName` for `typeName` — the
registration test `addChildTypeFieldName` implements.  Exactly as in the
source, the first record carrying the type name decides (records further
down the list are never consulted). -/
def registered : List TypeField → String → String → Bool
  | [], _, _ => false
  | tf :: rest, typeName, fieldName =>
    if tf.TypeName == typeName then tf.FieldNames.contains fieldName
    else registered rest typeName fieldName

/-- The `fieldNameToRef` map of `getAllChildNodes`: built by inserting
`(FieldDefinitionNameString(ref), ref)` for each field definition of the
node in order (later inserts overwrite earlier ones, as for a Go map), and
looked up with the zero value `0` as default for a missing key. -/
def fieldNameToRef (d : Document) (node : Node) (fieldName : String) : Nat :=
  match (((NodeFieldDefinitions d node).map
      fun r => (FieldDefinitionNameString d r, r)).reverse.find?
        fun p => p.1 == fieldName) with
  | some p => p.2
  | none => 0

/-- The explicit-stack form of `findChildNodesForType`, structurally
recursive on `fuel`.  A frame `(typeName, k)` is an activation of the
source function `findChildNodesForType(typeName, &childNodes)` whose loop
is about to process the `k`-th field definition of the type's node:
look the node up (extensions are not indexed, so a missing node pops the
frame — the walk stops there); when all fields are processed pop the
frame; otherwise run `addChildTypeFieldName` on the field's name, and on
first registration push a frame for the field's declared return type (the
recursive call), else move to the next field. -/
def walkFuel (d : Document) : Nat → List (String × Nat) → List TypeField → List TypeField
  | 0, _, childNodes => childNodes
  | fuel + 1, stack, childNodes =>
    match stack with
    | [] => childNodes
    | (typeName, k) :: rest =>
      match FirstNodeByNameStr d typeName with
      | none => walkFuel d fuel rest childNodes
      | some node =>
        match (NodeFieldDefinitions d node).drop k with
        | [] => walkFuel d fuel rest childNodes
        | fieldRef :: _ =>
          let fieldName := FieldDefinitionNameString d fieldRef
          match addChildTypeFieldName typeName fieldName childNodes with
          | (false, childNodes') =>
            walkFuel d fuel ((typeName, k + 1) :: rest) childNodes'
          | (true, childNodes') =>
            let fieldTypeName := FieldDefinitionTypeNodeName d fieldRef
            walkFuel d fuel ((fieldTypeName, 0) :: (typeName, k + 1) :: rest) childNodes'

/-- All `(type name, field name)` pairs declared by top-level nodes; the
walk can only ever register pairs from this list. -/
def docPairsList (d : Document) : List (String × String) :=
  d.rootNodes.flatMap fun n =>
    n.fieldRefs.map fun ref => (n.name, FieldDefinitionNameString d ref)

/-- Number of declared pairs not yet registered in the accumulator: the
part of the potential that strictly drops on every first registration. -/
def missingPairs (d : Document) (childNodes : List TypeField) : Nat :=
  ((docPairsList d).toFinset.filter fun p => registered childNodes p.1 p.2 = false).card

/-- Remaining work of one stack frame: the number of still unprocessed
field definitions, plus one for popping the frame. -/
def frameWeight (d : Document) (f : String × Nat) : Nat :=
  match FirstNodeByNameStr d f.1 with
  | none => 1
  | some node => ((NodeFieldDefinitions d node).drop f.2).length + 1

/-- Remaining work of the whole stack. -/
def stackWeight (d : Document) (stack : List (String × Nat)) : Nat :=
  (stack.map (frameWeight d)).sum

/-- Upper bound on the number of field definitions of any single node. -/
def fieldsBound (d : Document) : Nat :=
  (d.rootNodes.map fun n => n.fieldRefs.length).sum

/-- Potential of a walk state: every step of `walkFuel` strictly decreases
it, so it bounds the number of steps until the stack drains. -/
def phi (d : Document) (stack : List (String × Nat)) (childNodes : List TypeField) : Nat :=
  stackWeight d stack + missingPairs d childNodes * (fieldsBound d + 2)

/-- `(r *TypeFieldExtractor) findChildNodesForType(typeName, &childNodes)`:
run the walk to completion (fuel `phi + 1` always suffices; see the
stabilization lemma `walkFuel_stable`). -/
def findChildNodesForType (d : Document) (typeName : String)
    (childNodes : List TypeField) : List TypeField :=
  walkFuel d (phi d [(typeName, 0)] childNodes + 1) [(typeName, 0)] childNodes

/-- The per-field step of the loop in `getAllChildNodes`: resolve the
field name to a field-definition reference through `fieldNameToRef` (a
missing name yields the zero reference `0`), take that definition's
declared return type name, and walk it. -/
def childWalkStep (d : Document) (node : Node) (childNodes : List TypeField)
    (fieldName : String) : List TypeField :=
  let fieldRef := fieldNameToRef d node fieldName
  let fieldTypeName := FieldDefinitionTypeNodeName d fieldRef
  findChildNodesForType d fieldTypeName childNodes

/-- `(r *TypeFieldExtractor) getAllChildNodes(rootNodes)`: for every root
`TypeField`, look its type's node up (skipping the root entry when
absent), build the field-name-to-reference map, and walk the declared
return type of each listed field name. -/
def getAllChildNodes (d : Document) (rootNodes : List TypeField) : List TypeField :=
  rootNodes.foldl
    (fun childNodes rn =>
      match FirstNodeByNameStr d rn.TypeName with
      | none => childNodes
      | some node => rn.FieldNames.foldl (childWalkStep d node) childNodes)
    []

/-- `(r *TypeFieldExtractor) GetAllNodes()`: the root nodes, then the
child nodes computed from them. -/
def GetAllNodes (e : Externals) (d : Document) : List TypeField × List TypeField :=
  let rootNodes := getAllRootNodes e d
  (rootNodes, getAllChildNodes d rootNodes)

/-- Whether `getAllRootNodes` processes a node of this kind (the two cases
of its `switch`); `addRootNodes` runs exactly once per processed node. -/
def isProcessedKind (n : Node) : Bool :=
  match n.kind with
  | NodeKind.objectTypeExtension => true
  | NodeKind.objectTypeDefinition => true
  | NodeKind.other => false

/-- `getAllRootNodes` instrumented with the number of `baseSchema`
invocations: `addRootNodes` begins with `document := r.baseSchema()`, so
each call of `addRootNodes` performs exactly one invocation of the
base-schema resolver pipeline, and the counter increments once per
processed node. -/
def getAllRootNodesCounted (e : Externals) (d : Document) : List TypeField × Nat :=
  d.rootNodes.foldl
    (fun acc astNode =>
      match astNode.kind with
      | NodeKind.objectTypeExtension => (addRootNodes e d astNode acc.1, acc.2 + 1)
      | NodeKind.objectTypeDefinition => (addRootNodes e d astNode acc.1, acc.2 + 1)
      | NodeKind.other => acc)
    ([], 0)

/-- `baseSchema` with the extractor's document threaded as state.
Modelled from the spec: the printer, base-schema synthesizer and parser
are read-only with respect to their text/document arguments and produce
fresh values; the only in-place mutation of the pipeline,
`asttransform.MergeDefinitionWithBaseSchema(&document)`, is applied to the
locally parsed `document`, never to the extractor's document, which is
therefore returned unchanged. -/
def baseSchemaTracked (e : Externals) (d : Document) : Option Document × Document :=
  match e.printString d with
  | none => (none, d)
  | some schemaSDL =>
    match e.buildBaseSchemaDocument schemaSDL with
    | none => (none, d)
    | some baseSchemaSDL =>
      match e.parseGraphqlDocumentString baseSchemaSDL with
      | none => (none, d)
      | some document =>
        match e.mergeDefinitionWithBaseSchema document with
        | none => (none, d)
        | some merged =>
          match e.printString merged with
          | none => (none, d)
          | some mergedSDL =>
            match e.parseGraphqlDocumentString mergedSDL with
            | none => (none, d)
            | some mergedDocument => (some mergedDocument, d)

/-- `addRootNodes` with the extractor's document threaded as state: all
its accesses (`NodeNameString`, `isEntity`, the field-definition reads of
`nonExternalFieldNames`) are Navigator reads, and `baseSchemaTracked`
threads the state through the resolver pipeline. -/
def addRootNodesTracked (e : Externals) (d : Document) (astNode : Node)
    (rootNodes : List TypeField) : List TypeField × Document :=
  let typeName := NodeNameString d astNode
  let p := baseSchemaTracked e d
  let document := p.1
  let d1 := p.2
  if !isEntity d1 astNode &&
      (match document with
       | none => true
       | some doc => !IsRootOperationTypeNameString doc typeName) then
    (rootNodes, d1)
  else
    let fieldNames := nonExternalFieldNames d1 astNode
    if fieldNames.isEmpty then
      (rootNodes, d1)
    else
      (rootNodes ++ [{ TypeName := typeName, FieldNames := fieldNames }], d1)

/-- `getAllRootNodes` with the document threaded as state (the iteration
ranges over the root-node list read at entry). -/
def getAllRootNodesTracked (e : Externals) (d : Document) : List TypeField × Document :=
  d.rootNodes.foldl
    (fun acc astNode =>
      match astNode.kind with
      | NodeKind.objectTypeExtension => addRootNodesTracked e acc.2 astNode acc.1
      | NodeKind.objectTypeDefinition => addRootNodesTracked e acc.2 astNode acc.1
      | NodeKind.other => acc)
    ([], d)

/-- `getAllChildNodes` with the document threaded as state: the child walk
performs only Navigator reads (`FirstNodeByNameStr`, field-definition
lookups), so each step passes the state document on unchanged. -/
def getAllChildNodesTracked (d : Document) (rootNodes : List TypeField) :
    List TypeField × Document :=
  rootNodes.foldl
    (fun acc rn =>
      match FirstNodeByNameStr acc.2 rn.TypeName with
      | none => acc
      | some node => (rn.FieldNames.foldl (childWalkStep acc.2 node) acc.1, acc.2))
    ([], d)

/-- `GetAllNodes` with the document threaded as state through root
collection (base-schema resolution included) and the child walk. -/
def GetAllNodesTracked (e : Externals) (d : Document) :
    (List TypeField × List TypeField) × Document :=
  let p := getAllRootNodesTracked e d
  let q := getAllChildNodesTracked p.2 p.1
  ((p.1, q.1), q.2)

/-- Structural validity of the input document, as assumed by the spec
(section 6): within each top-level node, field definition names are
pairwise distinct. -/
def nodupFieldNamesPerNode (d : Document) : Prop :=
  ∀ node ∈ d.rootNodes, (node.fieldRefs.map (FieldDefinitionNameString d)).Nodup

/-- Well-formedness the child accumulator preserves: type names are
pairwise distinct, and every record has a duplicate-free, non-empty
field-name list. -/
def Good (cn : List TypeField) : Prop :=
  (cn.map TypeField.TypeName).Nodup ∧ ∀ tf ∈ cn, tf.FieldNames.Nodup ∧ tf.FieldNames ≠ []

/-- Completeness of a child accumulator: every record of a type whose node
is indexed lists every declared field of that node. -/
def childComplete (d : Document) (cn : List TypeField) : Prop :=
  ∀ tf ∈ cn, ∀ node, FirstNodeByNameStr d tf.TypeName = some node →
    ∀ ref ∈ NodeFieldDefinitions d node,
      registered cn tf.TypeName (FieldDefinitionNameString d ref) = true

/-- Invariant of the walk loop: (1) every record is complete except for
fields still covered by a pending stack frame of its type; (2) every
stack frame has already registered the fields before its cursor. -/
def InvHolds (d : Document) (stack : List (String × Nat)) (cn : List TypeField) : Prop :=
  (∀ tf ∈ cn, ∀ node, FirstNodeByNameStr d tf.TypeName = some node →
     ∀ ref ∈ NodeFieldDefinitions d node,
       registered cn tf.TypeName (FieldDefinitionNameString d ref) = true ∨
         ∃ k, (tf.TypeName, k) ∈ stack ∧ ref ∈ (NodeFieldDefinitions d node).drop k) ∧
  (∀ tn k node, (tn, k) ∈ stack → FirstNodeByNameStr d tn = some node →
     ∀ ref ∈ (NodeFieldDefinitions d node).take k,
       registered cn tn (FieldDefinitionNameString d ref) = true)

/-- The root-qualification test of `addRootNodes`, positively phrased: the
source keeps a node iff it is an entity, or the base schema resolved and
records the node's name as a root-operation-type name (the negation of the
early-return condition `!isEntity && (document == nil || !IsRoot...)`). -/
def qualifies (e : Externals) (d : Document) (astNode : Node) : Bool :=
  isEntity d astNode ||
    (match baseSchema e d with
     | none => false
     | some doc => IsRootOperationTypeNameString doc (NodeNameString d astNode))

/-- The list of root records `getAllRootNodes` emits for a list of
top-level nodes: one record per processed, qualifying node with a
non-empty filtered field list, in order. -/
def rootRecords (e : Externals) (d : Document) (nodes : List Node) : List TypeField :=
  nodes.flatMap fun astNode =>
    if isProcessedKind astNode && qualifies e d astNode &&
        !(nonExternalFieldNames d astNode).isEmpty then
      [{ TypeName := NodeNameString d astNode,
         FieldNames := nonExternalFieldNames d astNode }]
    else []

/-! ### Concrete instances used to evaluate the model -/

/-- External collaborators whose pipeline fails at the first stage
(printing fails), so `baseSchema` resolves to `none`. -/
def noExternals : Externals :=
  { printString := fun _ => none
  , buildBaseSchemaDocument := fun _ => none
  , parseGraphqlDocumentString := fun _ => none
  , mergeDefinitionWithBaseSchema := fun _ => none }

/-- The node `type A @key { a: B, c: S }` of the cyclic example (the `key`
directive makes `A` a root entity, so the child walk actually starts). -/
def exNodeA : Node :=
  { kind := NodeKind.objectTypeDefinition, name := "A", fieldRefs := [0, 1]
  , directives := ["key"] }

/-- The node `type B { b: A }` of the cyclic example. -/
def exNodeB : Node :=
  { kind := NodeKind.objectTypeDefinition, name := "B", fieldRefs := [2]
  , directives := [] }

/-- A two-type cyclic document: `type A { a: B, c: S }` and
`type B { b: A }` (`S` resolves to no node, like a scalar). -/
def exCycleDoc : Document :=
  { fieldDefinitions :=
      [ { name := "a", typeName := "B", directives := [] }
      , { name := "c", typeName := "S", directives := [] }
      , { name := "b", typeName := "A", directives := [] } ]
  , rootNodes := [exNodeA, exNodeB]
  , rootOperationTypeNames := [] }

/-- A document declaring the same type name twice at the top level:
`type X @key { a: String }` and `extend type X @key { b: String }`. -/
def exDupRootDoc : Document :=
  { fieldDefinitions :=
      [ { name := "a", typeName := "String", directives := [] }
      , { name := "b", typeName := "String", directives := [] } ]
  , rootNodes :=
      [ { kind := NodeKind.objectTypeDefinition, name := "X", fieldRefs := [0]
        , directives := ["key"] }
      , { kind := NodeKind.objectTypeExtension, name := "X", fieldRefs := [1]
        , directives := ["key"] } ]
  , rootOperationTypeNames := [] }

/-- The node `type X @key { a: X, secret: String @external }`. -/
def exNodeX : Node :=
  { kind := NodeKind.objectTypeDefinition, name := "X", fieldRefs := [0, 1]
  , directives := ["key"] }

/-- A single federation entity with an external field and a
self-referential field: `type X @key { a: X, secret: String @external }`. -/
def exEntityDoc : Document :=
  { fieldDefinitions :=
      [ { name := "a", typeName := "X", directives := [] }
      , { name := "secret", typeName := "String", directives := ["external"] } ]
  , rootNodes := [exNodeX]
  , rootOperationTypeNames := [] }

/-! ### Lemmas about registration -/

theorem registered_mem (cn : List TypeField) (t f : String)
    (h : registered cn t f = true) :
    ∃ tf ∈ cn, tf.TypeName = t ∧ f ∈ tf.FieldNames := by
  induction cn with
  | nil => simp [registered] at h
  | cons tf rest ih =>
    by_cases h1 : tf.TypeName = t
    · simp only [registered, beq_iff_eq, if_pos h1, List.elem_iff] at h
      exact ⟨tf, List.mem_cons_self _ _, h1, h⟩
    · simp only [registered, beq_iff_eq, if_neg h1] at h
      obtain ⟨tf', h3, h4, h5⟩ := ih h
      exact ⟨tf', List.mem_cons_of_mem _ h3, h4, h5⟩

theorem registered_of_mem (cn : List TypeField) (t f : String) (tf : TypeField)
    (hnodup : (cn.map TypeField.TypeName).Nodup)
    (htf : tf ∈ cn) (ht : tf.TypeName = t) (hf : f ∈ tf.FieldNames) :
    registered cn t f = true := by
  induction cn with
  | nil => simp at htf
  | cons tf0 rest ih =>
    rcases List.mem_cons.mp htf with h | h
    · subst h
      simp [registered, ht, List.elem_iff, hf]
    · by_cases h1 : tf0.TypeName = t
      · exfalso
        have : t ∈ rest.map TypeField.TypeName :=
          ht ▸ List.mem_map_of_mem TypeField.TypeName h
        rw [List.map_cons, List.nodup_cons] at hnodup
        exact hnodup.1 (h1 ▸ this)
      · simp only [registered, beq_iff_eq, if_neg h1]
        exact ih (by simpa using hnodup.of_cons) h

theorem addChild_snd_of_false (t f : String) (cn : List TypeField)
    (h : (addChildTypeFieldName t f cn).1 = false) :
    (addChildTypeFieldName t f cn).2 = cn := by
  induction cn with
  | nil => simp [addChildTypeFieldName] at h
  | cons tf rest ih =>
    by_cases h1 : tf.TypeName = t
    · by_cases h2 : f ∈ tf.FieldNames
      · simp [addChildTypeFieldName, h1, h2]
      · simp [addChildTypeFieldName, h1, h2] at h
    · simp only [addChildTypeFieldName, beq_iff_eq, if_neg h1] at h ⊢
      rw [ih h]

theorem addChild_registered_self (t f : String) (cn : List TypeField) :
    registered (addChildTypeFieldName t f cn).2 t f = true := by
  induction cn with
  | nil => simp [addChildTypeFieldName, registered]
  | cons tf rest ih =>
    by_cases h1 : tf.TypeName = t
    · by_cases h2 : f ∈ tf.FieldNames
      · simp [addChildTypeFieldName, registered, h1, h2]
      · simp [addChildTypeFieldName, registered, h1, h2]
    · simpa [addChildTypeFieldName, registered, h1] using ih

theorem addChild_true_iff (t f : String) (cn : List TypeField) :
    (addChildTypeFieldName t f cn).1 = true ↔ registered cn t f = false := by
  induction cn with
  | nil => simp [addChildTypeFieldName, registered]
  | cons tf rest ih =>
    by_cases h1 : tf.TypeName = t
    · by_cases h2 : f ∈ tf.FieldNames
      · simp [addChildTypeFieldName, registered, h1, h2]
      · simp [addChildTypeFieldName, registered, h1, h2]
    · simp [addChildTypeFieldName, registered, h1, ih]

theorem addChild_registered_other (t f t' f' : String) (cn : List TypeField)
    (h : ¬(t' = t ∧ f' = f)) :
    registered (addChildTypeFieldName t f cn).2 t' f' = registered cn t' f' := by
  induction cn with
  | nil =>
    by_cases h1 : t = t'
    · subst h1
      have h2 : ¬(f' = f) := fun hf => h ⟨rfl, hf⟩
      simp [addChildTypeFieldName, registered, h2]
    · simp [addChildTypeFieldName, registered, fun hh : t = t' => h1 hh]
  | cons tf rest ih =>
    by_cases h1 : tf.TypeName = t
    · by_cases h2 : f ∈ tf.FieldNames
      · simp [addChildTypeFieldName, h1, h2]
      · by_cases h3 : tf.TypeName = t'
        · have h4 : ¬(f' = f) := fun hf => h ⟨by rw [← h3, h1], hf⟩
          simp [addChildTypeFieldName, registered, h1, h2, h3, h4]
        · have h5 : ¬(t = t') := fun hh => h3 (h1.trans hh)
          simp [addChildTypeFieldName, registered, h1, h2, h3, h5]
    · by_cases h3 : tf.TypeName = t'
      · have h6 : ¬(t' = t) := fun hh => h1 (h3.trans hh)
        simp [addChildTypeFieldName, registered, h1, h3, h6]
      · simp [addChildTypeFieldName, registered, h1, h3, ih]

theorem addChild_mono (t f t' f' : String) (cn : List TypeField)
    (h : registered cn t' f' = true) :
    registered (addChildTypeFieldName t f cn).2 t' f' = true := by
  by_cases h1 : t' = t ∧ f' = f
  · rcases h1 with ⟨h1, h2⟩; subst h1; subst h2
    exact addChild_registered_self t' f' cn
  · rw [addChild_registered_other t f t' f' cn h1]; exact h

theorem addChild_mem (t f : String) (cn : List TypeField) (tf : TypeField)
    (h : tf ∈ (addChildTypeFieldName t f cn).2) :
    tf.TypeName = t ∨ tf ∈ cn := by
  induction cn with
  | nil =>
    simp only [addChildTypeFieldName, List.mem_singleton] at h
    subst h; exact Or.inl rfl
  | cons tf0 rest ih =>
    by_cases h1 : tf0.TypeName = t
    · by_cases h2 : f ∈ tf0.FieldNames
      · simp only [addChildTypeFieldName, beq_iff_eq, if_pos h1] at h
        rw [if_pos (by simpa using h2)] at h
        exact Or.inr h
      · simp only [addChildTypeFieldName, beq_iff_eq, if_pos h1] at h
        rw [if_neg (by simpa using h2)] at h
        rcases List.mem_cons.mp h with h | h
        · subst h; exact Or.inl (by simpa using h1)
        · exact Or.inr (List.mem_cons_of_mem _ h)
    · simp only [addChildTypeFieldName, beq_iff_eq, if_neg h1, List.mem_cons] at h
      rcases h with h | h
      · subst h; exact Or.inr (List.mem_cons_self _ _)
      · rcases ih h with h' | h'
        · exact Or.inl h'
        · exact Or.inr (List.mem_cons_of_mem _ h')

theorem addChild_map_typeNames (t f : String) (cn : List TypeField) :
    ((addChildTypeFieldName t f cn).2.map TypeField.TypeName) =
      if t ∈ cn.map TypeField.TypeName then cn.map TypeField.TypeName
      else cn.map TypeField.TypeName ++ [t] := by
  induction cn with
  | nil => simp [addChildTypeFieldName]
  | cons tf0 rest ih =>
    by_cases h1 : tf0.TypeName = t
    · subst h1
      by_cases h2 : f ∈ tf0.FieldNames
      · simp [addChildTypeFieldName, h2]
      · simp [addChildTypeFieldName, h2]
    · have h1' : ¬t = tf0.TypeName := fun hh => h1 hh.symm
      by_cases h3 : t ∈ rest.map TypeField.TypeName
      · simp [addChildTypeFieldName, h1, ih, h3, h1']
      · simp [addChildTypeFieldName, h1, ih, h3, h1']

theorem addChild_good (t f : String) (cn : List TypeField) (h : Good cn) :
    Good (addChildTypeFieldName t f cn).2 := by
  obtain ⟨hnodup, hrec⟩ := h
  constructor
  · rw [addChild_map_typeNames]
    by_cases h3 : t ∈ cn.map TypeField.TypeName
    · simpa [h3] using hnodup
    · simp only [if_neg h3]
      exact List.Nodup.append hnodup (List.nodup_singleton t)
        (by simpa [List.disjoint_singleton] using h3)
  · intro tf htf
    clear hnodup
    induction cn with
    | nil =>
      simp only [addChildTypeFieldName, List.mem_singleton] at htf
      subst htf
      exact ⟨List.nodup_singleton f, by simp⟩
    | cons tf0 rest ih =>
      by_cases h1 : tf0.TypeName = t
      · by_cases h2 : f ∈ tf0.FieldNames
        · simp only [addChildTypeFieldName, beq_iff_eq, if_pos h1] at htf
          rw [if_pos (by simpa using h2)] at htf
          exact hrec tf htf
        · simp only [addChildTypeFieldName, beq_iff_eq, if_pos h1] at htf
          rw [if_neg (by simpa using h2)] at htf
          rcases List.mem_cons.mp htf with h4 | h4
          · subst h4
            refine ⟨?_, by simp⟩
            have h5 := (hrec tf0 (List.mem_cons_self _ _)).1
            simpa using List.Nodup.append h5 (List.nodup_singleton f)
              (by simpa [List.disjoint_singleton] using h2)
          · exact hrec tf (List.mem_cons_of_mem _ h4)
      · simp only [addChildTypeFieldName, beq_iff_eq, if_neg h1, List.mem_cons] at htf
        rcases htf with h4 | h4
        · subst h4; exact hrec tf (List.mem_cons_self _ _)
        · exact ih (fun tf' h' => hrec tf' (List.mem_cons_of_mem _ h')) h4

/-! ### List and lookup helpers -/

theorem drop_succ_of_drop {α : Type} (l : List α) (k : Nat) (a : α) (t : List α)
    (h : l.drop k = a :: t) : l.drop (k + 1) = t := by
  rw [← List.drop_drop 1 k l, h, List.drop_one, List.tail_cons]

theorem take_succ_of_drop {α : Type} (l : List α) (k : Nat) (a : α) (t : List α)
    (h : l.drop k = a :: t) : l.take (k + 1) = l.take k ++ [a] := by
  rw [List.take_add l k 1, h]
  simp

theorem mem_of_mem_drop {α : Type} {l : List α} {k : Nat} {a : α}
    (h : a ∈ l.drop k) : a ∈ l :=
  List.drop_subset k l h

theorem head_mem_of_drop {α : Type} (l : List α) (k : Nat) (a : α) (t : List α)
    (h : l.drop k = a :: t) : a ∈ l :=
  mem_of_mem_drop (h ▸ List.mem_cons_self a t)

theorem mem_take_or_drop {α : Type} (l : List α) (k : Nat) (a : α) (h : a ∈ l) :
    a ∈ l.take k ∨ a ∈ l.drop k := by
  rw [← List.take_append_drop k l] at h
  exact List.mem_append.mp h

theorem nodup_map_inj {α β : Type} (l : List α) (g : α → β)
    (hnodup : (l.map g).Nodup) (a b : α) (ha : a ∈ l) (hb : b ∈ l)
    (hab : g a = g b) : a = b := by
  exact List.inj_on_of_nodup_map hnodup ha hb hab

theorem firstNode_spec (d : Document) (name : String) (node : Node)
    (h : FirstNodeByNameStr d name = some node) :
    node ∈ d.rootNodes ∧ node.name = name := by
  refine ⟨List.mem_of_find?_eq_some h, ?_⟩
  have h2 := List.find?_some h
  simp only [Bool.and_eq_true, beq_iff_eq] at h2
  exact h2.2

theorem docPairs_intro (d : Document) (node : Node) (ref : Nat)
    (hnode : node ∈ d.rootNodes) (href : ref ∈ node.fieldRefs) :
    (node.name, FieldDefinitionNameString d ref) ∈ docPairsList d := by
  rw [docPairsList, List.mem_flatMap]
  exact ⟨node, hnode, List.mem_map_of_mem _ href⟩

/-! ### The potential decreases along every walk step -/

theorem stackWeight_cons (d : Document) (f : String × Nat) (st : List (String × Nat)) :
    stackWeight d (f :: st) = frameWeight d f + stackWeight d st := by
  simp [stackWeight]

theorem missing_le (d : Document) (cn cn' : List TypeField)
    (hmono : ∀ t f, registered cn t f = true → registered cn' t f = true) :
    missingPairs d cn' ≤ missingPairs d cn := by
  apply Finset.card_le_card
  intro p hp
  rw [Finset.mem_filter] at hp ⊢
  refine ⟨hp.1, ?_⟩
  cases hreg : registered cn p.1 p.2 with
  | false => rfl
  | true =>
    have := hmono p.1 p.2 hreg
    rw [hp.2] at this
    exact absurd this (by simp)

theorem missing_lt (d : Document) (cn cn' : List TypeField) (t f : String)
    (hmono : ∀ t' f', registered cn t' f' = true → registered cn' t' f' = true)
    (hpair : (t, f) ∈ docPairsList d)
    (hold : registered cn t f = false) (hnew : registered cn' t f = true) :
    missingPairs d cn' < missingPairs d cn := by
  apply Finset.card_lt_card
  rw [Finset.ssubset_iff_of_subset]
  · refine ⟨(t, f), ?_, ?_⟩
    · rw [Finset.mem_filter]
      exact ⟨List.mem_toFinset.mpr hpair, hold⟩
    · rw [Finset.mem_filter]
      rintro ⟨-, h2⟩
      rw [hnew] at h2
      exact absurd h2 (by simp)
  · intro p hp
    rw [Finset.mem_filter] at hp ⊢
    refine ⟨hp.1, ?_⟩
    cases hreg : registered cn p.1 p.2 with
    | false => rfl
    | true =>
      have := hmono p.1 p.2 hreg
      rw [hp.2] at this
      exact absurd this (by simp)

theorem frameWeight_le (d : Document) (f : String × Nat) :
    frameWeight d f ≤ fieldsBound d + 1 := by
  cases h : FirstNodeByNameStr d f.1 with
  | none => simp only [frameWeight, h]; omega
  | some node =>
    simp only [frameWeight, h]
    have h1 : node ∈ d.rootNodes := (firstNode_spec d f.1 node h).1
    have h2 : node.fieldRefs.length ≤ fieldsBound d := by
      have h3 : node.fieldRefs.length ∈ d.rootNodes.map fun n => n.fieldRefs.length :=
        List.mem_map_of_mem _ h1
      exact List.single_le_sum (fun x _ => Nat.zero_le x) _ h3
    have h4 : ((NodeFieldDefinitions d node).drop f.2).length ≤ node.fieldRefs.length := by
      rw [NodeFieldDefinitions, List.length_drop]
      omega
    omega

theorem phi_pop_none (d : Document) (tn : String) (k : Nat)
    (rest : List (String × Nat)) (cn : List TypeField)
    (h : FirstNodeByNameStr d tn = none) :
    phi d rest cn < phi d ((tn, k) :: rest) cn := by
  have hfw : frameWeight d (tn, k) = 1 := by simp [frameWeight, h]
  rw [phi, phi, stackWeight_cons, hfw]
  omega

theorem phi_pop_end (d : Document) (tn : String) (k : Nat)
    (rest : List (String × Nat)) (cn : List TypeField) (node : Node)
    (h : FirstNodeByNameStr d tn = some node)
    (hdrop : (NodeFieldDefinitions d node).drop k = []) :
    phi d rest cn < phi d ((tn, k) :: rest) cn := by
  have hfw : frameWeight d (tn, k) = 1 := by simp [frameWeight, h, hdrop]
  rw [phi, phi, stackWeight_cons, hfw]
  omega

theorem phi_false (d : Document) (tn : String) (k : Nat)
    (rest : List (String × Nat)) (cn : List TypeField) (node : Node)
    (fieldRef : Nat) (tail : List Nat)
    (h : FirstNodeByNameStr d tn = some node)
    (hdrop : (NodeFieldDefinitions d node).drop k = fieldRef :: tail)
    (hadd : (addChildTypeFieldName tn (FieldDefinitionNameString d fieldRef) cn).1 = false) :
    phi d ((tn, k + 1) :: rest)
        (addChildTypeFieldName tn (FieldDefinitionNameString d fieldRef) cn).2 <
      phi d ((tn, k) :: rest) cn := by
  rw [addChild_snd_of_false _ _ _ hadd]
  have hfw1 : frameWeight d (tn, k) = tail.length + 2 := by
    simp [frameWeight, h, hdrop]
  have hfw2 : frameWeight d (tn, k + 1) = tail.length + 1 := by
    simp [frameWeight, h, drop_succ_of_drop _ _ _ _ hdrop]
  rw [phi, phi, stackWeight_cons, stackWeight_cons, hfw1, hfw2]
  omega

theorem phi_true (d : Document) (tn : String) (k : Nat)
    (rest : List (String × Nat)) (cn : List TypeField) (node : Node)
    (fieldRef : Nat) (tail : List Nat)
    (h : FirstNodeByNameStr d tn = some node)
    (hdrop : (NodeFieldDefinitions d node).drop k = fieldRef :: tail)
    (hadd : (addChildTypeFieldName tn (FieldDefinitionNameString d fieldRef) cn).1 = true) :
    phi d ((FieldDefinitionTypeNodeName d fieldRef, 0) :: (tn, k + 1) :: rest)
        (addChildTypeFieldName tn (FieldDefinitionNameString d fieldRef) cn).2 <
      phi d ((tn, k) :: rest) cn := by
  have hpair : (tn, FieldDefinitionNameString d fieldRef) ∈ docPairsList d := by
    obtain ⟨hmem, hname⟩ := firstNode_spec d tn node h
    have href : fieldRef ∈ node.fieldRefs :=
      head_mem_of_drop (NodeFieldDefinitions d node) k fieldRef tail hdrop
    exact hname ▸ docPairs_intro d node fieldRef hmem href
  have hold : registered cn tn (FieldDefinitionNameString d fieldRef) = false :=
    (addChild_true_iff _ _ _).mp hadd
  have hnew := addChild_registered_self tn (FieldDefinitionNameString d fieldRef) cn
  have hmiss : missingPairs d
      (addChildTypeFieldName tn (FieldDefinitionNameString d fieldRef) cn).2 <
      missingPairs d cn :=
    missing_lt d cn _ tn (FieldDefinitionNameString d fieldRef)
      (fun t' f' => addChild_mono _ _ t' f' cn) hpair hold hnew
  have hfw0 : frameWeight d (FieldDefinitionTypeNodeName d fieldRef, 0) ≤ fieldsBound d + 1 :=
    frameWeight_le d _
  have hfw1 : frameWeight d (tn, k) = tail.length + 2 := by
    simp [frameWeight, h, hdrop]
  have hfw2 : frameWeight d (tn, k + 1) = tail.length + 1 := by
    simp [frameWeight, h, drop_succ_of_drop _ _ _ _ hdrop]
  have hprod : missingPairs d
        (addChildTypeFieldName tn (FieldDefinitionNameString d fieldRef) cn).2 *
        (fieldsBound d + 2) + (fieldsBound d + 2) ≤
      missingPairs d cn * (fieldsBound d + 2) := by
    have h5 : missingPairs d
        (addChildTypeFieldName tn (FieldDefinitionNameString d fieldRef) cn).2 + 1 ≤
        missingPairs d cn := hmiss
    calc missingPairs d
          (addChildTypeFieldName tn (FieldDefinitionNameString d fieldRef) cn).2 *
          (fieldsBound d + 2) + (fieldsBound d + 2)
        = (missingPairs d
            (addChildTypeFieldName tn (FieldDefinitionNameString d fieldRef) cn).2 + 1) *
          (fieldsBound d + 2) := by ring
      _ ≤ missingPairs d cn * (fieldsBound d + 2) :=
          Nat.mul_le_mul_right _ h5
  rw [phi, phi, stackWeight_cons, stackWeight_cons, stackWeight_cons, hfw1, hfw2]
  revert hprod hfw0
  generalize missingPairs d
    (addChildTypeFieldName tn (FieldDefinitionNameString d fieldRef) cn).2 *
    (fieldsBound d + 2) = P
  generalize missingPairs d cn * (fieldsBound d + 2) = Q
  intro hfw0 hprod
  omega

/-! ### Step equations of the walk loop -/

theorem walkFuel_step_nil (d : Document) (fuel : Nat) (cn : List TypeField) :
    walkFuel d (fuel + 1) [] cn = cn := rfl

theorem walkFuel_step_none (d : Document) (fuel : Nat) (tn : String) (k : Nat)
    (rest : List (String × Nat)) (cn : List TypeField)
    (h : FirstNodeByNameStr d tn = none) :
    walkFuel d (fuel + 1) ((tn, k) :: rest) cn = walkFuel d fuel rest cn := by
  simp only [walkFuel, h]

theorem walkFuel_step_end (d : Document) (fuel : Nat) (tn : String) (k : Nat)
    (rest : List (String × Nat)) (cn : List TypeField) (node : Node)
    (h : FirstNodeByNameStr d tn = some node)
    (hdrop : (NodeFieldDefinitions d node).drop k = []) :
    walkFuel d (fuel + 1) ((tn, k) :: rest) cn = walkFuel d fuel rest cn := by
  simp only [walkFuel, h, hdrop]

theorem walkFuel_step_false (d : Document) (fuel : Nat) (tn : String) (k : Nat)
    (rest : List (String × Nat)) (cn : List TypeField) (node : Node)
    (fieldRef : Nat) (tail : List Nat) (cn' : List TypeField)
    (h : FirstNodeByNameStr d tn = some node)
    (hdrop : (NodeFieldDefinitions d node).drop k = fieldRef :: tail)
    (hadd : addChildTypeFieldName tn (FieldDefinitionNameString d fieldRef) cn = (false, cn')) :
    walkFuel d (fuel + 1) ((tn, k) :: rest) cn =
      walkFuel d fuel ((tn, k + 1) :: rest) cn' := by
  simp only [walkFuel, h, hdrop, hadd]

theorem walkFuel_step_true (d : Document) (fuel : Nat) (tn : String) (k : Nat)
    (rest : List (String × Nat)) (cn : List TypeField) (node : Node)
    (fieldRef : Nat) (tail : List Nat) (cn' : List TypeField)
    (h : FirstNodeByNameStr d tn = some node)
    (hdrop : (NodeFieldDefinitions d node).drop k = fieldRef :: tail)
    (hadd : addChildTypeFieldName tn (FieldDefinitionNameString d fieldRef) cn = (true, cn')) :
    walkFuel d (fuel + 1) ((tn, k) :: rest) cn =
      walkFuel d fuel
        ((FieldDefinitionTypeNodeName d fieldRef, 0) :: (tn, k + 1) :: rest) cn' := by
  simp only [walkFuel, h, hdrop, hadd]

/-- Above the potential, the walk's result does not depend on the fuel:
this is the termination of the source recursion, expressed for the
fuel-indexed loop. -/
theorem walkFuel_stable (d : Document) :
    ∀ (f1 f2 : Nat) (st : List (String × Nat)) (cn : List TypeField),
      phi d st cn < f1 → phi d st cn < f2 →
      walkFuel d f1 st cn = walkFuel d f2 st cn := by
  intro f1
  induction f1 with
  | zero => intro f2 st cn h1 h2; omega
  | succ f1 ih =>
    intro f2 st cn h1 h2
    cases f2 with
    | zero => omega
    | succ f2 =>
      rcases st with _ | ⟨⟨tn, k⟩, rest⟩
      · rw [walkFuel_step_nil, walkFuel_step_nil]
      · cases hl : FirstNodeByNameStr d tn with
        | none =>
          rw [walkFuel_step_none d f1 tn k rest cn hl,
            walkFuel_step_none d f2 tn k rest cn hl]
          have hphi := phi_pop_none d tn k rest cn hl
          exact ih f2 rest cn (by omega) (by omega)
        | some node =>
          cases hdrop : (NodeFieldDefinitions d node).drop k with
          | nil =>
            rw [walkFuel_step_end d f1 tn k rest cn node hl hdrop,
              walkFuel_step_end d f2 tn k rest cn node hl hdrop]
            have hphi := phi_pop_end d tn k rest cn node hl hdrop
            exact ih f2 rest cn (by omega) (by omega)
          | cons fieldRef tail =>
            have hadd : addChildTypeFieldName tn (FieldDefinitionNameString d fieldRef) cn =
                ((addChildTypeFieldName tn (FieldDefinitionNameString d fieldRef) cn).1,
                  (addChildTypeFieldName tn (FieldDefinitionNameString d fieldRef) cn).2) := rfl
            cases hb : (addChildTypeFieldName tn (FieldDefinitionNameString d fieldRef) cn).1 with
            | false =>
              rw [hb] at hadd
              rw [walkFuel_step_false d f1 tn k rest cn node fieldRef tail _ hl hdrop hadd,
                walkFuel_step_false d f2 tn k rest cn node fieldRef tail _ hl hdrop hadd]
              have hphi := phi_false d tn k rest cn node fieldRef tail hl hdrop hb
              exact ih f2 _ _ (by omega) (by omega)
            | true =>
              rw [hb] at hadd
              rw [walkFuel_step_true d f1 tn k rest cn node fieldRef tail _ hl hdrop hadd,
                walkFuel_step_true d f2 tn k rest cn node fieldRef tail _ hl hdrop hadd]
              have hphi := phi_true d tn k rest cn node fieldRef tail hl hdrop hb
              exact ih f2 _ _ (by omega) (by omega)

/-- Pairs registered in the accumulator stay registered through the walk. -/
theorem walkFuel_mono (d : Document) :
    ∀ (fuel : Nat) (st : List (String × Nat)) (cn : List TypeField) (t f : String),
      registered cn t f = true → registered (walkFuel d fuel st cn) t f = true := by
  intro fuel
  induction fuel with
  | zero => intro st cn t f h; exact h
  | succ fuel ih =>
    intro st cn t f h
    rcases st with _ | ⟨⟨tn, k⟩, rest⟩
    · rw [walkFuel_step_nil]; exact h
    · cases hl : FirstNodeByNameStr d tn with
      | none =>
        rw [walkFuel_step_none d fuel tn k rest cn hl]
        exact ih rest cn t f h
      | some node =>
        cases hdrop : (NodeFieldDefinitions d node).drop k with
        | nil =>
          rw [walkFuel_step_end d fuel tn k rest cn node hl hdrop]
          exact ih rest cn t f h
        | cons fieldRef tail =>
          have hadd : addChildTypeFieldName tn (FieldDefinitionNameString d fieldRef) cn =
              ((addChildTypeFieldName tn (FieldDefinitionNameString d fieldRef) cn).1,
                (addChildTypeFieldName tn (FieldDefinitionNameString d fieldRef) cn).2) := rfl
          cases hb : (addChildTypeFieldName tn (FieldDefinitionNameString d fieldRef) cn).1 with
          | false =>
            rw [hb] at hadd
            rw [walkFuel_step_false d fuel tn k rest cn node fieldRef tail _ hl hdrop hadd]
            exact ih _ _ t f (addChild_mono _ _ t f cn h)
          | true =>
            rw [hb] at hadd
            rw [walkFuel_step_true d fuel tn k rest cn node fieldRef tail _ hl hdrop hadd]
            exact ih _ _ t f (addChild_mono _ _ t f cn h)

/-- Every pair the walk registers beyond the initial accumulator is a
declared `(type, field)` pair of the document. -/
theorem walkFuel_sound (d : Document) :
    ∀ (fuel : Nat) (st : List (String × Nat)) (cn : List TypeField) (t f : String),
      registered (walkFuel d fuel st cn) t f = true →
      registered cn t f = true ∨ (t, f) ∈ docPairsList d := by
  intro fuel
  induction fuel with
  | zero => intro st cn t f h; exact Or.inl h
  | succ fuel ih =>
    intro st cn t f h
    rcases st with _ | ⟨⟨tn, k⟩, rest⟩
    · rw [walkFuel_step_nil] at h; exact Or.inl h
    · cases hl : FirstNodeByNameStr d tn with
      | none =>
        rw [walkFuel_step_none d fuel tn k rest cn hl] at h
        exact ih rest cn t f h
      | some node =>
        cases hdrop : (NodeFieldDefinitions d node).drop k with
        | nil =>
          rw [walkFuel_step_end d fuel tn k rest cn node hl hdrop] at h
          exact ih rest cn t f h
        | cons fieldRef tail =>
          have hadd : addChildTypeFieldName tn (FieldDefinitionNameString d fieldRef) cn =
              ((addChildTypeFieldName tn (FieldDefinitionNameString d fieldRef) cn).1,
                (addChildTypeFieldName tn (FieldDefinitionNameString d fieldRef) cn).2) := rfl
          cases hb : (addChildTypeFieldName tn (FieldDefinitionNameString d fieldRef) cn).1 with
          | false =>
            rw [hb] at hadd
            rw [walkFuel_step_false d fuel tn k rest cn node fieldRef tail _ hl hdrop hadd] at h
            rcases ih _ _ t f h with h' | h'
            · rw [addChild_snd_of_false _ _ _ hb] at h'
              exact Or.inl h'
            · exact Or.inr h'
          | true =>
            rw [hb] at hadd
            rw [walkFuel_step_true d fuel tn k rest cn node fieldRef tail _ hl hdrop hadd] at h
            rcases ih _ _ t f h with h' | h'
            · by_cases hpf : t = tn ∧ f = FieldDefinitionNameString d fieldRef
              · right
                obtain ⟨hmem, hname⟩ := firstNode_spec d tn node hl
                have href : fieldRef ∈ node.fieldRefs :=
                  head_mem_of_drop (NodeFieldDefinitions d node) k fieldRef tail hdrop
                rw [hpf.1, hpf.2, ← hname]
                exact docPairs_intro d node fieldRef hmem href
              · rw [addChild_registered_other _ _ t f cn hpf] at h'
                exact Or.inl h'
            · exact Or.inr h'

/-- The walk preserves well-formedness of the accumulator. -/
theorem walkFuel_good (d : Document) :
    ∀ (fuel : Nat) (st : List (String × Nat)) (cn : List TypeField),
      Good cn → Good (walkFuel d fuel st cn) := by
  intro fuel
  induction fuel with
  | zero => intro st cn h; exact h
  | succ fuel ih =>
    intro st cn h
    rcases st with _ | ⟨⟨tn, k⟩, rest⟩
    · rw [walkFuel_step_nil]; exact h
    · cases hl : FirstNodeByNameStr d tn with
      | none =>
        rw [walkFuel_step_none d fuel tn k rest cn hl]
        exact ih rest cn h
      | some node =>
        cases hdrop : (NodeFieldDefinitions d node).drop k with
        | nil =>
          rw [walkFuel_step_end d fuel tn k rest cn node hl hdrop]
          exact ih rest cn h
        | cons fieldRef tail =>
          have hadd : addChildTypeFieldName tn (FieldDefinitionNameString d fieldRef) cn =
              ((addChildTypeFieldName tn (FieldDefinitionNameString d fieldRef) cn).1,
                (addChildTypeFieldName tn (FieldDefinitionNameString d fieldRef) cn).2) := rfl
          cases hb : (addChildTypeFieldName tn (FieldDefinitionNameString d fieldRef) cn).1 with
          | false =>
            rw [hb] at hadd
            rw [walkFuel_step_false d fuel tn k rest cn node fieldRef tail _ hl hdrop hadd]
            exact ih _ _ (addChild_good _ _ cn h)
          | true =>
            rw [hb] at hadd
            rw [walkFuel_step_true d fuel tn k rest cn node fieldRef tail _ hl hdrop hadd]
            exact ih _ _ (addChild_good _ _ cn h)

/-- Derived form of `addChild_true_iff`: a `false` return means the pair
was already registered. -/
theorem addChild_false_registered (t f : String) (cn : List TypeField)
    (h : (addChildTypeFieldName t f cn).1 = false) :
    registered cn t f = true := by
  cases hr : registered cn t f with
  | true => rfl
  | false =>
    rw [← addChild_true_iff] at hr
    rw [hr] at h
    cases h

/-- Every stack frame eventually registers all of its still unprocessed
fields: the loop never abandons a frame before its field list is
exhausted. -/
theorem walkFuel_frame_complete (d : Document) :
    ∀ (fuel : Nat) (st : List (String × Nat)) (cn : List TypeField),
      phi d st cn < fuel →
      ∀ (tn : String) (k : Nat) (node : Node), (tn, k) ∈ st →
        FirstNodeByNameStr d tn = some node →
        ∀ ref ∈ (NodeFieldDefinitions d node).drop k,
          registered (walkFuel d fuel st cn) tn (FieldDefinitionNameString d ref) = true := by
  intro fuel
  induction fuel with
  | zero => intro st cn hphi; omega
  | succ fuel ih =>
    intro st cn hphi tn k node hmem hlook ref href
    rcases st with _ | ⟨⟨tn0, k0⟩, rest⟩
    · simp at hmem
    · cases hl : FirstNodeByNameStr d tn0 with
      | none =>
        rw [walkFuel_step_none d fuel tn0 k0 rest cn hl]
        have hphi' := phi_pop_none d tn0 k0 rest cn hl
        rcases List.mem_cons.mp hmem with heq | hmem'
        · rw [Prod.mk.injEq] at heq
          obtain ⟨h1, h2⟩ := heq
          subst h1
          rw [hlook] at hl
          cases hl
        · exact ih rest cn (by omega) tn k node hmem' hlook ref href
      | some node0 =>
        cases hdrop : (NodeFieldDefinitions d node0).drop k0 with
        | nil =>
          rw [walkFuel_step_end d fuel tn0 k0 rest cn node0 hl hdrop]
          have hphi' := phi_pop_end d tn0 k0 rest cn node0 hl hdrop
          rcases List.mem_cons.mp hmem with heq | hmem'
          · rw [Prod.mk.injEq] at heq
            obtain ⟨h1, h2⟩ := heq
            subst h1; subst h2
            rw [hlook] at hl
            injection hl with hnode
            subst hnode
            rw [hdrop] at href
            simp at href
          · exact ih rest cn (by omega) tn k node hmem' hlook ref href
        | cons fieldRef tail =>
          have hadd : addChildTypeFieldName tn0 (FieldDefinitionNameString d fieldRef) cn =
              ((addChildTypeFieldName tn0 (FieldDefinitionNameString d fieldRef) cn).1,
                (addChildTypeFieldName tn0 (FieldDefinitionNameString d fieldRef) cn).2) := rfl
          cases hb : (addChildTypeFieldName tn0 (FieldDefinitionNameString d fieldRef) cn).1 with
          | false =>
            rw [hb] at hadd
            rw [walkFuel_step_false d fuel tn0 k0 rest cn node0 fieldRef tail _ hl hdrop hadd]
            have hphi' := phi_false d tn0 k0 rest cn node0 fieldRef tail hl hdrop hb
            have hsnd := addChild_snd_of_false tn0 (FieldDefinitionNameString d fieldRef) cn hb
            rcases List.mem_cons.mp hmem with heq | hmem'
            · rw [Prod.mk.injEq] at heq
              obtain ⟨h1, h2⟩ := heq
              subst h1; subst h2
              rw [hlook] at hl
              injection hl with hnode
              subst hnode
              rw [hdrop] at href
              rcases List.mem_cons.mp href with he | ht
              · subst he
                have hreg0 := addChild_false_registered tn (FieldDefinitionNameString d ref) cn hb
                rw [hsnd]
                exact walkFuel_mono d fuel _ cn tn (FieldDefinitionNameString d ref) hreg0
              · have hdrop1 := drop_succ_of_drop (NodeFieldDefinitions d node) k fieldRef tail hdrop
                exact ih _ _ (by omega) tn (k + 1) node (List.mem_cons_self _ _) hlook ref
                  (hdrop1 ▸ ht)
            · exact ih _ _ (by omega) tn k node (List.mem_cons_of_mem _ hmem') hlook ref href
          | true =>
            rw [hb] at hadd
            rw [walkFuel_step_true d fuel tn0 k0 rest cn node0 fieldRef tail _ hl hdrop hadd]
            have hphi' := phi_true d tn0 k0 rest cn node0 fieldRef tail hl hdrop hb
            rcases List.mem_cons.mp hmem with heq | hmem'
            · rw [Prod.mk.injEq] at heq
              obtain ⟨h1, h2⟩ := heq
              subst h1; subst h2
              rw [hlook] at hl
              injection hl with hnode
              subst hnode
              rw [hdrop] at href
              rcases List.mem_cons.mp href with he | ht
              · subst he
                have hreg0 := addChild_registered_self tn (FieldDefinitionNameString d ref) cn
                exact walkFuel_mono d fuel _ _ tn (FieldDefinitionNameString d ref) hreg0
              · have hdrop1 := drop_succ_of_drop (NodeFieldDefinitions d node) k fieldRef tail hdrop
                exact ih _ _ (by omega) tn (k + 1) node
                  (List.mem_cons_of_mem _ (List.mem_cons_self _ _)) hlook ref (hdrop1 ▸ ht)
            · exact ih _ _ (by omega) tn k node
                (List.mem_cons_of_mem _ (List.mem_cons_of_mem _ hmem')) hlook ref href

/-- If a pending frame still has an unregistered field whose declared
return type resolves to a node, the walk descends into that node and
registers all of its fields: the recursion of the source really reaches
the return type of every field it registers for the first time.  The
duplicate-free hypothesis on the frame's field names reflects structural
validity of the document (a type does not declare one field name twice). -/
theorem walkFuel_reaches (d : Document) :
    ∀ (fuel : Nat) (st : List (String × Nat)) (cn : List TypeField),
      phi d st cn < fuel →
      ∀ (tn : String) (k : Nat) (node : Node), (tn, k) ∈ st →
        FirstNodeByNameStr d tn = some node →
        ((NodeFieldDefinitions d node).map (FieldDefinitionNameString d)).Nodup →
        ∀ ref ∈ (NodeFieldDefinitions d node).drop k,
          registered cn tn (FieldDefinitionNameString d ref) = false →
          ∀ (node' : Node),
            FirstNodeByNameStr d (FieldDefinitionTypeNodeName d ref) = some node' →
            ∀ ref' ∈ NodeFieldDefinitions d node',
              registered (walkFuel d fuel st cn)
                (FieldDefinitionTypeNodeName d ref) (FieldDefinitionNameString d ref') = true := by
  intro fuel
  induction fuel with
  | zero => intro st cn hphi; omega
  | succ fuel ih =>
    intro st cn hphi tn k node hmem hlook hnodup ref href hunreg node' hlook' ref' href'
    rcases st with _ | ⟨⟨tn0, k0⟩, rest⟩
    · simp at hmem
    · cases hl : FirstNodeByNameStr d tn0 with
      | none =>
        rw [walkFuel_step_none d fuel tn0 k0 rest cn hl]
        have hphi' := phi_pop_none d tn0 k0 rest cn hl
        rcases List.mem_cons.mp hmem with heq | hmem'
        · rw [Prod.mk.injEq] at heq
          obtain ⟨h1, h2⟩ := heq
          subst h1
          rw [hlook] at hl
          cases hl
        · exact ih rest cn (by omega) tn k node hmem' hlook hnodup ref href hunreg
            node' hlook' ref' href'
      | some node0 =>
        cases hdrop : (NodeFieldDefinitions d node0).drop k0 with
        | nil =>
          rw [walkFuel_step_end d fuel tn0 k0 rest cn node0 hl hdrop]
          have hphi' := phi_pop_end d tn0 k0 rest cn node0 hl hdrop
          rcases List.mem_cons.mp hmem with heq | hmem'
          · rw [Prod.mk.injEq] at heq
            obtain ⟨h1, h2⟩ := heq
            subst h1; subst h2
            rw [hlook] at hl
            injection hl with hnode
            subst hnode
            rw [hdrop] at href
            simp at href
          · exact ih rest cn (by omega) tn k node hmem' hlook hnodup ref href hunreg
              node' hlook' ref' href'
        | cons fieldRef tail =>
          have hadd : addChildTypeFieldName tn0 (FieldDefinitionNameString d fieldRef) cn =
              ((addChildTypeFieldName tn0 (FieldDefinitionNameString d fieldRef) cn).1,
                (addChildTypeFieldName tn0 (FieldDefinitionNameString d fieldRef) cn).2) := rfl
          cases hb : (addChildTypeFieldName tn0 (FieldDefinitionNameString d fieldRef) cn).1 with
          | false =>
            rw [hb] at hadd
            rw [walkFuel_step_false d fuel tn0 k0 rest cn node0 fieldRef tail _ hl hdrop hadd]
            have hphi' := phi_false d tn0 k0 rest cn node0 fieldRef tail hl hdrop hb
            have hsnd := addChild_snd_of_false tn0 (FieldDefinitionNameString d fieldRef) cn hb
            rcases List.mem_cons.mp hmem with heq | hmem'
            · rw [Prod.mk.injEq] at heq
              obtain ⟨h1, h2⟩ := heq
              subst h1; subst h2
              rw [hlook] at hl
              injection hl with hnode
              subst hnode
              rw [hdrop] at href
              rcases List.mem_cons.mp href with he | ht
              · subst he
                have hreg0 := addChild_false_registered tn (FieldDefinitionNameString d ref) cn hb
                rw [hreg0] at hunreg
                cases hunreg
              · have hdrop1 := drop_succ_of_drop (NodeFieldDefinitions d node) k fieldRef tail hdrop
                rw [hsnd] at hphi' ⊢
                exact ih _ _ (by omega) tn (k + 1) node (List.mem_cons_self _ _) hlook hnodup
                  ref (hdrop1 ▸ ht) hunreg node' hlook' ref' href'
            · rw [hsnd] at hphi' ⊢
              exact ih _ _ (by omega) tn k node (List.mem_cons_of_mem _ hmem') hlook hnodup
                ref href hunreg node' hlook' ref' href'
          | true =>
            rw [hb] at hadd
            rw [walkFuel_step_true d fuel tn0 k0 rest cn node0 fieldRef tail _ hl hdrop hadd]
            have hphi' := phi_true d tn0 k0 rest cn node0 fieldRef tail hl hdrop hb
            rcases List.mem_cons.mp hmem with heq | hmem'
            · rw [Prod.mk.injEq] at heq
              obtain ⟨h1, h2⟩ := heq
              subst h1; subst h2
              rw [hlook] at hl
              injection hl with hnode
              subst hnode
              rw [hdrop] at href
              rcases List.mem_cons.mp href with he | ht
              · subst he
                exact walkFuel_frame_complete d fuel _ _ (by omega)
                  (FieldDefinitionTypeNodeName d ref) 0 node' (List.mem_cons_self _ _) hlook'
                  ref' (by simpa using href')
              · by_cases hname : FieldDefinitionNameString d ref =
                    FieldDefinitionNameString d fieldRef
                · exfalso
                  have hrefs : ref = fieldRef :=
                    nodup_map_inj (NodeFieldDefinitions d node) (FieldDefinitionNameString d)
                      hnodup ref fieldRef (mem_of_mem_drop (hdrop ▸ List.mem_cons_of_mem _ ht))
                      (head_mem_of_drop _ k fieldRef tail hdrop) hname
                  have hnd : (NodeFieldDefinitions d node).Nodup := List.Nodup.of_map _ hnodup
                  have hnd2 : (fieldRef :: tail).Nodup := by
                    rw [← hdrop]
                    exact List.Sublist.nodup (List.drop_sublist k _) hnd
                  rw [hrefs] at ht
                  exact (List.nodup_cons.mp hnd2).1 ht
                · have hdrop1 :=
                    drop_succ_of_drop (NodeFieldDefinitions d node) k fieldRef tail hdrop
                  have hunreg' : registered
                      (addChildTypeFieldName tn (FieldDefinitionNameString d fieldRef) cn).2
                      tn (FieldDefinitionNameString d ref) = false := by
                    rw [addChild_registered_other _ _ _ _ cn
                      (fun hc => hname hc.2)]
                    exact hunreg
                  exact ih _ _ (by omega) tn (k + 1) node
                    (List.mem_cons_of_mem _ (List.mem_cons_self _ _)) hlook hnodup
                    ref (hdrop1 ▸ ht) hunreg' node' hlook' ref' href'
            · by_cases hsame : tn0 = tn ∧
                  FieldDefinitionNameString d fieldRef = FieldDefinitionNameString d ref
              · obtain ⟨hs1, hs2⟩ := hsame
                subst hs1
                rw [hlook] at hl
                injection hl with hnode
                subst hnode
                have hrefs : fieldRef = ref :=
                  nodup_map_inj (NodeFieldDefinitions d node) (FieldDefinitionNameString d)
                    hnodup fieldRef ref (head_mem_of_drop _ k0 fieldRef tail hdrop)
                    (mem_of_mem_drop href) hs2
                rw [← hrefs] at hlook' ⊢
                exact walkFuel_frame_complete d fuel _ _ (by omega)
                  (FieldDefinitionTypeNodeName d fieldRef) 0 node' (List.mem_cons_self _ _) hlook'
                  ref' (by simpa using href')
              · have hunreg' : registered
                    (addChildTypeFieldName tn0 (FieldDefinitionNameString d fieldRef) cn).2
                    tn (FieldDefinitionNameString d ref) = false := by
                  rw [addChild_registered_other _ _ _ _ cn
                    (fun hc => hsame ⟨hc.1.symm, hc.2.symm⟩)]
                  exact hunreg
                exact ih _ _ (by omega) tn k node
                  (List.mem_cons_of_mem _ (List.mem_cons_of_mem _ hmem')) hlook hnodup
                  ref href hunreg' node' hlook' ref' href'

/-- Running the loop from a state satisfying the walk invariant yields a
complete child accumulator: once the stack drains, every record of an
indexed type lists every declared field of that type. -/
theorem walkFuel_complete (d : Document) :
    ∀ (fuel : Nat) (st : List (String × Nat)) (cn : List TypeField),
      phi d st cn < fuel → InvHolds d st cn →
      childComplete d (walkFuel d fuel st cn) := by
  intro fuel
  induction fuel with
  | zero => intro st cn hphi; omega
  | succ fuel ih =>
    intro st cn hphi hinv
    obtain ⟨hinv1, hinv2⟩ := hinv
    rcases st with _ | ⟨⟨tn0, k0⟩, rest⟩
    · rw [walkFuel_step_nil]
      intro tf htf node hlook ref href
      rcases hinv1 tf htf node hlook ref href with hreg | ⟨k, hk, -⟩
      · exact hreg
      · simp at hk
    · cases hl : FirstNodeByNameStr d tn0 with
      | none =>
        rw [walkFuel_step_none d fuel tn0 k0 rest cn hl]
        have hphi' := phi_pop_none d tn0 k0 rest cn hl
        refine ih rest cn (by omega) ⟨?_, ?_⟩
        · intro tf htf node hlook ref href
          rcases hinv1 tf htf node hlook ref href with hreg | ⟨k, hk, hcov⟩
          · exact Or.inl hreg
          · rcases List.mem_cons.mp hk with heq | hk'
            · rw [Prod.mk.injEq] at heq
              rw [heq.1] at hlook
              rw [hlook] at hl
              cases hl
            · exact Or.inr ⟨k, hk', hcov⟩
        · intro tn k node hk hlook ref href
          exact hinv2 tn k node (List.mem_cons_of_mem _ hk) hlook ref href
      | some node0 =>
        cases hdrop : (NodeFieldDefinitions d node0).drop k0 with
        | nil =>
          rw [walkFuel_step_end d fuel tn0 k0 rest cn node0 hl hdrop]
          have hphi' := phi_pop_end d tn0 k0 rest cn node0 hl hdrop
          refine ih rest cn (by omega) ⟨?_, ?_⟩
          · intro tf htf node hlook ref href
            rcases hinv1 tf htf node hlook ref href with hreg | ⟨k, hk, hcov⟩
            · exact Or.inl hreg
            · rcases List.mem_cons.mp hk with heq | hk'
              · rw [Prod.mk.injEq] at heq
                rw [heq.1] at hlook
                rw [hlook] at hl
                injection hl with hnode
                rw [heq.2, hnode] at hcov
                rw [hdrop] at hcov
                simp at hcov
              · exact Or.inr ⟨k, hk', hcov⟩
          · intro tn k node hk hlook ref href
            exact hinv2 tn k node (List.mem_cons_of_mem _ hk) hlook ref href
        | cons fieldRef tail =>
          have hdrop1 := drop_succ_of_drop (NodeFieldDefinitions d node0) k0 fieldRef tail hdrop
          have htake1 := take_succ_of_drop (NodeFieldDefinitions d node0) k0 fieldRef tail hdrop
          have hadd : addChildTypeFieldName tn0 (FieldDefinitionNameString d fieldRef) cn =
              ((addChildTypeFieldName tn0 (FieldDefinitionNameString d fieldRef) cn).1,
                (addChildTypeFieldName tn0 (FieldDefinitionNameString d fieldRef) cn).2) := rfl
          cases hb : (addChildTypeFieldName tn0 (FieldDefinitionNameString d fieldRef) cn).1 with
          | false =>
            rw [hb] at hadd
            rw [walkFuel_step_false d fuel tn0 k0 rest cn node0 fieldRef tail _ hl hdrop hadd]
            have hphi' := phi_false d tn0 k0 rest cn node0 fieldRef tail hl hdrop hb
            have hsnd := addChild_snd_of_false tn0 (FieldDefinitionNameString d fieldRef) cn hb
            have hreg0 := addChild_false_registered tn0 (FieldDefinitionNameString d fieldRef) cn hb
            rw [hsnd] at hphi' ⊢
            refine ih _ cn (by omega) ⟨?_, ?_⟩
            · intro tf htf node hlook ref href
              rcases hinv1 tf htf node hlook ref href with hreg | ⟨k, hk, hcov⟩
              · exact Or.inl hreg
              · rcases List.mem_cons.mp hk with heq | hk'
                · rw [Prod.mk.injEq] at heq
                  rw [heq.1] at hlook
                  rw [hlook] at hl
                  injection hl with hnode
                  subst hnode
                  rw [heq.2] at hcov
                  rw [hdrop] at hcov
                  rcases List.mem_cons.mp hcov with hec | htc
                  · subst hec
                    rw [heq.1]
                    exact Or.inl hreg0
                  · refine Or.inr ⟨k0 + 1, ?_, ?_⟩
                    · rw [heq.1]; exact List.mem_cons_self _ _
                    · rw [hdrop1]; exact htc
                · exact Or.inr ⟨k, List.mem_cons_of_mem _ hk', hcov⟩
            · intro tn k node hk hlook ref href
              rcases List.mem_cons.mp hk with heq | hk'
              · rw [Prod.mk.injEq] at heq
                rw [heq.1] at hlook
                rw [hlook] at hl
                injection hl with hnode
                subst hnode
                rw [heq.2, htake1] at href
                rcases List.mem_append.mp href with hta | htb
                · rw [heq.1]
                  exact hinv2 tn0 k0 node (List.mem_cons_self _ _) hlook ref hta
                · rw [List.mem_singleton] at htb
                  subst htb
                  rw [heq.1]
                  exact hreg0
              · exact hinv2 tn k node (List.mem_cons_of_mem _ hk') hlook ref href
          | true =>
            rw [hb] at hadd
            rw [walkFuel_step_true d fuel tn0 k0 rest cn node0 fieldRef tail _ hl hdrop hadd]
            have hphi' := phi_true d tn0 k0 rest cn node0 fieldRef tail hl hdrop hb
            have hregself :=
              addChild_registered_self tn0 (FieldDefinitionNameString d fieldRef) cn
            have hmono : ∀ t' f', registered cn t' f' = true →
                registered (addChildTypeFieldName tn0
                  (FieldDefinitionNameString d fieldRef) cn).2 t' f' = true :=
              fun t' f' => addChild_mono _ _ t' f' cn
            refine ih _ _ (by omega) ⟨?_, ?_⟩
            · intro tf htf node hlook ref href
              by_cases hTn : tf.TypeName = tn0
              · rw [hTn] at hlook
                rw [hlook] at hl
                injection hl with hnode
                subst hnode
                rcases mem_take_or_drop (NodeFieldDefinitions d node) k0 ref href with hta | htd
                · left
                  rw [hTn]
                  exact hmono _ _ (hinv2 tn0 k0 node (List.mem_cons_self _ _) hlook ref hta)
                · rw [hdrop] at htd
                  rcases List.mem_cons.mp htd with hec | htc
                  · subst hec
                    left
                    rw [hTn]
                    exact hregself
                  · refine Or.inr ⟨k0 + 1, ?_, ?_⟩
                    · rw [hTn]
                      exact List.mem_cons_of_mem _ (List.mem_cons_self _ _)
                    · rw [hdrop1]; exact htc
              · have htf' : tf ∈ cn := by
                  rcases addChild_mem tn0 (FieldDefinitionNameString d fieldRef) cn tf htf
                    with hc | hc
                  · exact absurd hc hTn
                  · exact hc
                rcases hinv1 tf htf' node hlook ref href with hreg | ⟨k, hk, hcov⟩
                · exact Or.inl (hmono _ _ hreg)
                · rcases List.mem_cons.mp hk with heq | hk'
                  · rw [Prod.mk.injEq] at heq
                    exact absurd heq.1 hTn
                  · exact Or.inr ⟨k, List.mem_cons_of_mem _ (List.mem_cons_of_mem _ hk'), hcov⟩
            · intro tn k node hk hlook ref href
              rcases List.mem_cons.mp hk with heq | hk'
              · rw [Prod.mk.injEq] at heq
                rw [heq.2] at href
                simp at href
              · rcases List.mem_cons.mp hk' with heq | hk''
                · rw [Prod.mk.injEq] at heq
                  rw [heq.1] at hlook
                  rw [hlook] at hl
                  injection hl with hnode
                  subst hnode
                  rw [heq.2, htake1] at href
                  rcases List.mem_append.mp href with hta | htb
                  · rw [heq.1]
                    exact hmono _ _ (hinv2 tn0 k0 node (List.mem_cons_self _ _) hlook ref hta)
                  · rw [List.mem_singleton] at htb
                    subst htb
                    rw [heq.1]
                    exact hregself
                · exact hmono _ _ (hinv2 tn k node (List.mem_cons_of_mem _ hk'') hlook ref href)

/-! ### Transfer to findChildNodesForType and getAllChildNodes -/

theorem findChild_eq_walkFuel (d : Document) (t : String) (cn : List TypeField)
    (fuel : Nat) (h : phi d [(t, 0)] cn < fuel) :
    findChildNodesForType d t cn = walkFuel d fuel [(t, 0)] cn := by
  rw [findChildNodesForType]
  exact walkFuel_stable d _ fuel _ cn (Nat.lt_succ_self _) h

theorem findChild_mono (d : Document) (t : String) (cn : List TypeField)
    (t' f' : String) (h : registered cn t' f' = true) :
    registered (findChildNodesForType d t cn) t' f' = true := by
  rw [findChildNodesForType]
  exact walkFuel_mono d _ _ cn t' f' h

theorem findChild_sound (d : Document) (t : String) (cn : List TypeField)
    (t' f' : String) (h : registered (findChildNodesForType d t cn) t' f' = true) :
    registered cn t' f' = true ∨ (t', f') ∈ docPairsList d := by
  rw [findChildNodesForType] at h
  exact walkFuel_sound d _ _ cn t' f' h

theorem findChild_good (d : Document) (t : String) (cn : List TypeField)
    (h : Good cn) : Good (findChildNodesForType d t cn) := by
  rw [findChildNodesForType]
  exact walkFuel_good d _ _ cn h

theorem invHolds_start (d : Document) (t : String) (cn : List TypeField)
    (h : childComplete d cn) : InvHolds d [(t, 0)] cn := by
  constructor
  · intro tf htf node hlook ref href
    exact Or.inl (h tf htf node hlook ref href)
  · intro tn k node hk hlook ref href
    simp only [List.mem_singleton, Prod.mk.injEq] at hk
    rw [hk.2] at href
    simp at href

theorem findChild_complete (d : Document) (t : String) (cn : List TypeField)
    (h : childComplete d cn) : childComplete d (findChildNodesForType d t cn) := by
  rw [findChildNodesForType]
  exact walkFuel_complete d _ _ cn (Nat.lt_succ_self _) (invHolds_start d t cn h)

theorem foldl_childWalkStep_pres (d : Document) (P : List TypeField → Prop)
    (hstep : ∀ (cn : List TypeField) (tname : String),
      P cn → P (findChildNodesForType d tname cn)) :
    ∀ (names : List String) (node : Node) (cn : List TypeField), P cn →
      P (names.foldl (childWalkStep d node) cn) := by
  intro names
  induction names with
  | nil => intro node cn h; exact h
  | cons name rest ih =>
    intro node cn h
    rw [List.foldl_cons]
    refine ih node _ ?_
    simp only [childWalkStep]
    exact hstep _ _ h

theorem getAllChildNodes_pres (d : Document) (P : List TypeField → Prop)
    (hstep : ∀ (cn : List TypeField) (tname : String),
      P cn → P (findChildNodesForType d tname cn))
    (hnil : P []) (rs : List TypeField) : P (getAllChildNodes d rs) := by
  rw [getAllChildNodes]
  have aux : ∀ (rs' : List TypeField) (cn : List TypeField), P cn →
      P (rs'.foldl
        (fun childNodes rn =>
          match FirstNodeByNameStr d rn.TypeName with
          | none => childNodes
          | some node => rn.FieldNames.foldl (childWalkStep d node) childNodes) cn) := by
    intro rs'
    induction rs' with
    | nil => intro cn h; exact h
    | cons rn rest ih =>
      intro cn h
      rw [List.foldl_cons]
      apply ih
      cases hl : FirstNodeByNameStr d rn.TypeName with
      | none => simpa [hl] using h
      | some node =>
        simp only [hl]
        exact foldl_childWalkStep_pres d P hstep rn.FieldNames node cn h
  exact aux rs [] hnil

/-! ### Characterization of root collection -/

theorem addRootNodes_eq (e : Externals) (d : Document) (astNode : Node)
    (acc : List TypeField) :
    addRootNodes e d astNode acc =
      if qualifies e d astNode && !(nonExternalFieldNames d astNode).isEmpty then
        acc ++ [{ TypeName := NodeNameString d astNode,
                  FieldNames := nonExternalFieldNames d astNode }]
      else acc := by
  rw [addRootNodes, qualifies]
  cases hb : baseSchema e d with
  | none =>
    cases he : isEntity d astNode with
    | false => simp [he]
    | true =>
      cases hne : (nonExternalFieldNames d astNode).isEmpty with
      | false => simp [he, hne]
      | true => simp [he, hne]
  | some doc =>
    cases he : isEntity d astNode with
    | false =>
      cases hr : IsRootOperationTypeNameString doc (NodeNameString d astNode) with
      | false => simp [he, hr]
      | true =>
        cases hne : (nonExternalFieldNames d astNode).isEmpty with
        | false => simp [he, hr, hne]
        | true => simp [he, hr, hne]
    | true =>
      cases hne : (nonExternalFieldNames d astNode).isEmpty with
      | false => simp [he, hne]
      | true => simp [he, hne]

theorem getAllRootNodes_eq (e : Externals) (d : Document) :
    getAllRootNodes e d = rootRecords e d d.rootNodes := by
  rw [getAllRootNodes]
  have aux : ∀ (nodes : List Node) (acc : List TypeField),
      nodes.foldl
        (fun rootNodes astNode =>
          match astNode.kind with
          | NodeKind.objectTypeExtension => addRootNodes e d astNode rootNodes
          | NodeKind.objectTypeDefinition => addRootNodes e d astNode rootNodes
          | NodeKind.other => rootNodes) acc =
        acc ++ rootRecords e d nodes := by
    intro nodes
    induction nodes with
    | nil => intro acc; simp [rootRecords]
    | cons n rest ih =>
      intro acc
      rw [List.foldl_cons]
      have hrec : rootRecords e d (n :: rest) =
          (if isProcessedKind n && qualifies e d n &&
              !(nonExternalFieldNames d n).isEmpty then
            [{ TypeName := NodeNameString d n,
               FieldNames := nonExternalFieldNames d n }]
          else []) ++ rootRecords e d rest := by
        rw [rootRecords, rootRecords, List.flatMap_cons]
      cases hk : n.kind with
      | other =>
        rw [hrec]
        have : isProcessedKind n = false := by rw [isProcessedKind, hk]
        simp only [this, Bool.false_and, if_neg (by simp : ¬(false = true))]
        simpa using ih acc
      | objectTypeExtension =>
        rw [hrec]
        have hp : isProcessedKind n = true := by rw [isProcessedKind, hk]
        rw [ih (addRootNodes e d n acc), addRootNodes_eq, hp]
        cases hq : (qualifies e d n && !(nonExternalFieldNames d n).isEmpty) with
        | false => simp [hq]
        | true => simp [hq]
      | objectTypeDefinition =>
        rw [hrec]
        have hp : isProcessedKind n = true := by rw [isProcessedKind, hk]
        rw [ih (addRootNodes e d n acc), addRootNodes_eq, hp]
        cases hq : (qualifies e d n && !(nonExternalFieldNames d n).isEmpty) with
        | false => simp [hq]
        | true => simp [hq]
  simpa using aux d.rootNodes []

theorem mem_getAllRootNodes (e : Externals) (d : Document) (tf : TypeField) :
    tf ∈ getAllRootNodes e d ↔
      ∃ astNode ∈ d.rootNodes, isProcessedKind astNode = true ∧
        qualifies e d astNode = true ∧ nonExternalFieldNames d astNode ≠ [] ∧
        tf = { TypeName := NodeNameString d astNode,
               FieldNames := nonExternalFieldNames d astNode } := by
  rw [getAllRootNodes_eq, rootRecords, List.mem_flatMap]
  constructor
  · rintro ⟨n, hn, hmem⟩
    by_cases hc : (isProcessedKind n && qualifies e d n &&
        !(nonExternalFieldNames d n).isEmpty) = true
    · rw [if_pos hc] at hmem
      rw [List.mem_singleton] at hmem
      simp only [Bool.and_eq_true, Bool.not_eq_true'] at hc
      refine ⟨n, hn, hc.1.1, hc.1.2, ?_, hmem⟩
      intro hnil
      rw [hnil] at hc
      simp at hc
    · rw [if_neg hc] at hmem
      simp at hmem
  · rintro ⟨n, hn, hp, hq, hne, htf⟩
    refine ⟨n, hn, ?_⟩
    rw [if_pos (by
      rw [Bool.and_eq_true, Bool.and_eq_true, Bool.not_eq_true']
      refine ⟨⟨hp, hq⟩, ?_⟩
      cases hE : (nonExternalFieldNames d n).isEmpty with
      | false => rfl
      | true => exact absurd (List.isEmpty_iff.mp hE) hne)]
    rw [List.mem_singleton]
    exact htf

theorem getAllRootNodesCounted_eq (e : Externals) (d : Document) :
    getAllRootNodesCounted e d =
      (getAllRootNodes e d, d.rootNodes.countP isProcessedKind) := by
  rw [getAllRootNodesCounted, getAllRootNodes]
  have aux : ∀ (nodes : List Node) (acc : List TypeField) (c : Nat),
      nodes.foldl
        (fun acc astNode =>
          match astNode.kind with
          | NodeKind.objectTypeExtension => (addRootNodes e d astNode acc.1, acc.2 + 1)
          | NodeKind.objectTypeDefinition => (addRootNodes e d astNode acc.1, acc.2 + 1)
          | NodeKind.other => acc) (acc, c) =
        (nodes.foldl
          (fun rootNodes astNode =>
            match astNode.kind with
            | NodeKind.objectTypeExtension => addRootNodes e d astNode rootNodes
            | NodeKind.objectTypeDefinition => addRootNodes e d astNode rootNodes
            | NodeKind.other => rootNodes) acc,
          c + nodes.countP isProcessedKind) := by
    intro nodes
    induction nodes with
    | nil => intro acc c; simp
    | cons n rest ih =>
      intro acc c
      rw [List.foldl_cons, List.foldl_cons, List.countP_cons]
      cases hk : n.kind with
      | other =>
        have hp : isProcessedKind n = false := by rw [isProcessedKind, hk]
        have h1 : (if isProcessedKind n = true then 1 else 0) = 0 := by simp [hp]
        rw [ih acc c, h1]
        simp
      | objectTypeExtension =>
        have hp : isProcessedKind n = true := by rw [isProcessedKind, hk]
        have h1 : (if isProcessedKind n = true then 1 else 0) = 1 := by simp [hp]
        rw [ih (addRootNodes e d n acc) (c + 1), h1, Prod.mk.injEq]
        exact ⟨rfl, by omega⟩
      | objectTypeDefinition =>
        have hp : isProcessedKind n = true := by rw [isProcessedKind, hk]
        have h1 : (if isProcessedKind n = true then 1 else 0) = 1 := by simp [hp]
        rw [ih (addRootNodes e d n acc) (c + 1), h1, Prod.mk.injEq]
        exact ⟨rfl, by omega⟩
  simpa using aux d.rootNodes [] 0

/-! ### The tracked variants return the document unchanged -/

theorem baseSchemaTracked_eq (e : Externals) (d : Document) :
    baseSchemaTracked e d = (baseSchema e d, d) := by
  cases h1 : e.printString d with
  | none => simp [baseSchemaTracked, baseSchema, h1]
  | some s1 =>
    cases h2 : e.buildBaseSchemaDocument s1 with
    | none => simp [baseSchemaTracked, baseSchema, h1, h2]
    | some s2 =>
      cases h3 : e.parseGraphqlDocumentString s2 with
      | none => simp [baseSchemaTracked, baseSchema, h1, h2, h3]
      | some doc1 =>
        cases h4 : e.mergeDefinitionWithBaseSchema doc1 with
        | none => simp [baseSchemaTracked, baseSchema, h1, h2, h3, h4]
        | some doc2 =>
          cases h5 : e.printString doc2 with
          | none => simp [baseSchemaTracked, baseSchema, h1, h2, h3, h4, h5]
          | some s3 =>
            cases h6 : e.parseGraphqlDocumentString s3 with
            | none => simp [baseSchemaTracked, baseSchema, h1, h2, h3, h4, h5, h6]
            | some doc3 => simp [baseSchemaTracked, baseSchema, h1, h2, h3, h4, h5, h6]

theorem addRootNodesTracked_eq (e : Externals) (d : Document) (astNode : Node)
    (rootNodes : List TypeField) :
    addRootNodesTracked e d astNode rootNodes =
      (addRootNodes e d astNode rootNodes, d) := by
  rw [addRootNodesTracked, addRootNodes, baseSchemaTracked_eq]
  cases hc : (!isEntity d astNode &&
      (match baseSchema e d with
       | none => true
       | some doc => !IsRootOperationTypeNameString doc (NodeNameString d astNode))) with
  | true => simp [hc]
  | false =>
    cases hne : (nonExternalFieldNames d astNode).isEmpty with
    | true => simp [hc, hne]
    | false => simp [hc, hne]

theorem getAllRootNodesTracked_eq (e : Externals) (d : Document) :
    getAllRootNodesTracked e d = (getAllRootNodes e d, d) := by
  rw [getAllRootNodesTracked, getAllRootNodes]
  have aux : ∀ (nodes : List Node) (acc : List TypeField),
      nodes.foldl
        (fun acc astNode =>
          match astNode.kind with
          | NodeKind.objectTypeExtension => addRootNodesTracked e acc.2 astNode acc.1
          | NodeKind.objectTypeDefinition => addRootNodesTracked e acc.2 astNode acc.1
          | NodeKind.other => acc) (acc, d) =
        (nodes.foldl
          (fun rootNodes astNode =>
            match astNode.kind with
            | NodeKind.objectTypeExtension => addRootNodes e d astNode rootNodes
            | NodeKind.objectTypeDefinition => addRootNodes e d astNode rootNodes
            | NodeKind.other => rootNodes) acc, d) := by
    intro nodes
    induction nodes with
    | nil => intro acc; rfl
    | cons n rest ih =>
      intro acc
      rw [List.foldl_cons, List.foldl_cons]
      cases hk : n.kind with
      | other => exact ih acc
      | objectTypeExtension => rw [addRootNodesTracked_eq]; exact ih _
      | objectTypeDefinition => rw [addRootNodesTracked_eq]; exact ih _
  exact aux d.rootNodes []

theorem getAllChildNodesTracked_eq (d : Document) (rs : List TypeField) :
    getAllChildNodesTracked d rs = (getAllChildNodes d rs, d) := by
  rw [getAllChildNodesTracked, getAllChildNodes]
  have aux : ∀ (rs' : List TypeField) (acc : List TypeField),
      rs'.foldl
        (fun acc rn =>
          match FirstNodeByNameStr acc.2 rn.TypeName with
          | none => acc
          | some node => (rn.FieldNames.foldl (childWalkStep acc.2 node) acc.1, acc.2))
        (acc, d) =
        (rs'.foldl
          (fun childNodes rn =>
            match FirstNodeByNameStr d rn.TypeName with
            | none => childNodes
            | some node => rn.FieldNames.foldl (childWalkStep d node) childNodes) acc, d) := by
    intro rs'
    induction rs' with
    | nil => intro acc; rfl
    | cons rn rest ih =>
      intro acc
      rw [List.foldl_cons, List.foldl_cons]
      cases hl : FirstNodeByNameStr d rn.TypeName with
      | none => simp only [hl]; exact ih acc
      | some node => simp only [hl]; exact ih _
  exact aux rs []

/-! ### Root field lists are duplicate-free sublists of declared names -/

theorem nonExternalFieldNames_sublist (d : Document) (node : Node) :
    List.Sublist (nonExternalFieldNames d node)
      ((NodeFieldDefinitions d node).map (FieldDefinitionNameString d)) := by
  rw [nonExternalFieldNames]
  induction NodeFieldDefinitions d node with
  | nil => simp
  | cons r rs ih =>
    rw [List.filterMap_cons, List.map_cons]
    cases hx : FieldDefinitionHasNamedDirective d r federationExternalDirectiveName with
    | true =>
      simp only [hx, if_true]
      exact List.Sublist.cons _ ih
    | false =>
      simp only [hx, Bool.false_eq_true, if_false]
      exact List.Sublist.cons₂ _ ih

/-! ### Helper lemmas for the claims -/

theorem good_nil : Good [] := by
  constructor
  · simp
  · intro tf htf
    simp at htf

theorem childComplete_nil (d : Document) : childComplete d [] := by
  intro tf htf
  simp at htf

theorem findChild_start_complete (d : Document) (t : String) (cn : List TypeField)
    (node : Node) (hlook : FirstNodeByNameStr d t = some node) :
    ∀ ref ∈ NodeFieldDefinitions d node,
      registered (findChildNodesForType d t cn) t (FieldDefinitionNameString d ref) = true := by
  intro ref href
  rw [findChildNodesForType]
  exact walkFuel_frame_complete d _ _ cn (Nat.lt_succ_self _) t 0 node
    (List.mem_cons_self _ _) hlook ref (by simpa using href)

theorem findChild_start_reaches (d : Document) (t : String) (cn : List TypeField)
    (node : Node) (hlook : FirstNodeByNameStr d t = some node)
    (hnodup : ((NodeFieldDefinitions d node).map (FieldDefinitionNameString d)).Nodup)
    (ref : Nat) (href : ref ∈ NodeFieldDefinitions d node)
    (hunreg : registered cn t (FieldDefinitionNameString d ref) = false)
    (node' : Node)
    (hlook' : FirstNodeByNameStr d (FieldDefinitionTypeNodeName d ref) = some node') :
    ∀ ref' ∈ NodeFieldDefinitions d node',
      registered (findChildNodesForType d t cn)
        (FieldDefinitionTypeNodeName d ref) (FieldDefinitionNameString d ref') = true := by
  intro ref' href'
  rw [findChildNodesForType]
  exact walkFuel_reaches d _ _ cn (Nat.lt_succ_self _) t 0 node
    (List.mem_cons_self _ _) hlook hnodup ref (by simpa using href) hunreg
    node' hlook' ref' href'

/-- The heart of the two-type-cycle analysis: starting the child walk at
`X` (which has a field of type `Y`) on a document whose declared pairs all
belong to `X` or `Y` produces exactly one complete record for each of the
two types. -/
theorem childWalk_two_type_cycle (d : Document) (X Y : Node) (s : String)
    (hs : s = X.name)
    (hX : FirstNodeByNameStr d X.name = some X)
    (hY : FirstNodeByNameStr d Y.name = some Y)
    (hXY : X.name ≠ Y.name)
    (hXnodup : ((NodeFieldDefinitions d X).map (FieldDefinitionNameString d)).Nodup)
    (refX : Nat) (hrefX : refX ∈ NodeFieldDefinitions d X)
    (htX : FieldDefinitionTypeNodeName d refX = Y.name)
    (refY : Nat) (hrefY : refY ∈ NodeFieldDefinitions d Y)
    (hdocp : ∀ t f, (t, f) ∈ docPairsList d →
      (t = X.name ∧ f ∈ (NodeFieldDefinitions d X).map (FieldDefinitionNameString d)) ∨
      (t = Y.name ∧ f ∈ (NodeFieldDefinitions d Y).map (FieldDefinitionNameString d))) :
    (∀ tf ∈ findChildNodesForType d s [], tf.TypeName = X.name ∨ tf.TypeName = Y.name) ∧
    ((findChildNodesForType d s []).map TypeField.TypeName).Nodup ∧
    (∃ tf ∈ findChildNodesForType d s [], tf.TypeName = X.name ∧ tf.FieldNames.Nodup ∧
      ∀ f, f ∈ tf.FieldNames ↔
        f ∈ (NodeFieldDefinitions d X).map (FieldDefinitionNameString d)) ∧
    (∃ tf ∈ findChildNodesForType d s [], tf.TypeName = Y.name ∧ tf.FieldNames.Nodup ∧
      ∀ f, f ∈ tf.FieldNames ↔
        f ∈ (NodeFieldDefinitions d Y).map (FieldDefinitionNameString d)) := by
  subst hs
  have hgood : Good (findChildNodesForType d X.name []) :=
    findChild_good d X.name [] good_nil
  have hXall : ∀ ref ∈ NodeFieldDefinitions d X,
      registered (findChildNodesForType d X.name []) X.name
        (FieldDefinitionNameString d ref) = true :=
    findChild_start_complete d X.name [] X hX
  have hYall : ∀ ref' ∈ NodeFieldDefinitions d Y,
      registered (findChildNodesForType d X.name []) Y.name
        (FieldDefinitionNameString d ref') = true := by
    have := findChild_start_reaches d X.name [] X hX hXnodup refX hrefX rfl
      Y (htX ▸ hY)
    rw [htX] at this
    exact this
  have hsound : ∀ t f,
      registered (findChildNodesForType d X.name []) t f = true →
      (t = X.name ∧ f ∈ (NodeFieldDefinitions d X).map (FieldDefinitionNameString d)) ∨
      (t = Y.name ∧ f ∈ (NodeFieldDefinitions d Y).map (FieldDefinitionNameString d)) := by
    intro t f h
    rcases findChild_sound d X.name [] t f h with h' | h'
    · cases h'
    · exact hdocp t f h'
  have hmemreg : ∀ tf ∈ findChildNodesForType d X.name [], ∀ f ∈ tf.FieldNames,
      registered (findChildNodesForType d X.name []) tf.TypeName f = true := by
    intro tf htf f hf
    exact registered_of_mem _ tf.TypeName f tf hgood.1 htf rfl hf
  refine ⟨?_, hgood.1, ?_, ?_⟩
  · intro tf htf
    obtain ⟨hnodup', hne'⟩ := hgood.2 tf htf
    obtain ⟨f, hf⟩ := List.exists_mem_of_ne_nil _ hne'
    rcases hsound tf.TypeName f (hmemreg tf htf f hf) with h' | h'
    · exact Or.inl h'.1
    · exact Or.inr h'.1
  · obtain ⟨tfX, htfX, htnX, hmemX⟩ :=
      registered_mem _ _ _ (hXall refX hrefX)
    refine ⟨tfX, htfX, htnX, (hgood.2 tfX htfX).1, ?_⟩
    intro f
    constructor
    · intro hf
      rcases hsound tfX.TypeName f (hmemreg tfX htfX f hf) with h' | h'
      · exact h'.2
      · rw [htnX] at h'
        exact absurd h'.1 hXY
    · intro hf
      obtain ⟨ref'', href'', hname''⟩ := List.mem_map.mp hf
      obtain ⟨tf', htf', htn', hmem'⟩ :=
        registered_mem _ _ _ (hname'' ▸ hXall ref'' href'')
      have : tf' = tfX :=
        nodup_map_inj _ TypeField.TypeName hgood.1 tf' tfX htf' htfX
          (by rw [htn', htnX])
      rw [← this]
      exact hmem'
  · obtain ⟨tfY, htfY, htnY, hmemY⟩ :=
      registered_mem _ _ _ (hYall refY hrefY)
    refine ⟨tfY, htfY, htnY, (hgood.2 tfY htfY).1, ?_⟩
    intro f
    constructor
    · intro hf
      rcases hsound tfY.TypeName f (hmemreg tfY htfY f hf) with h' | h'
      · rw [htnY] at h'
        exact absurd h'.1.symm hXY
      · exact h'.2
    · intro hf
      obtain ⟨ref'', href'', hname''⟩ := List.mem_map.mp hf
      obtain ⟨tf', htf', htn', hmem'⟩ :=
        registered_mem _ _ _ (hname'' ▸ hYall ref'' href'')
      have : tf' = tfY :=
        nodup_map_inj _ TypeField.TypeName hgood.1 tf' tfY htf' htfY
          (by rw [htn', htnY])
      rw [← this]
      exact hmem'

/-! ### The claims -/

/-- C1: for every document containing exactly two object types `A` and `B`,
where `A` has a field whose declared return type is `B` and `B` has a
field whose declared return type is `A`, the child collection
(`findChildNodesForType`, the walk `getAllChildNodes` runs from a root
field reaching `A` or `B`) terminates — the fuel-indexed loop stabilizes
at the value of the total function — and the resulting child set contains
exactly one `TypeField` for `A` and exactly one for `B` (their type names
are `A` and `B`, pairwise distinct in the output), each listing exactly
the fields declared on that type, each at most once.  As everywhere in the
spec, the document is structurally valid: neither type declares a field
name twice. -/
theorem c1_cycle_child_collection (d : Document) (A B : Node) (s : String)
    (hroot : d.rootNodes = [A, B])
    (hAkind : A.kind = NodeKind.objectTypeDefinition)
    (hBkind : B.kind = NodeKind.objectTypeDefinition)
    (hAB : A.name ≠ B.name)
    (hAnodup : ((NodeFieldDefinitions d A).map (FieldDefinitionNameString d)).Nodup)
    (hBnodup : ((NodeFieldDefinitions d B).map (FieldDefinitionNameString d)).Nodup)
    (refA : Nat) (hrefA : refA ∈ NodeFieldDefinitions d A)
    (htA : FieldDefinitionTypeNodeName d refA = B.name)
    (refB : Nat) (hrefB : refB ∈ NodeFieldDefinitions d B)
    (htB : FieldDefinitionTypeNodeName d refB = A.name)
    (hs : s = A.name ∨ s = B.name) :
    (∀ fuel, phi d [(s, 0)] [] < fuel →
      walkFuel d fuel [(s, 0)] [] = findChildNodesForType d s []) ∧
    (∀ tf ∈ findChildNodesForType d s [], tf.TypeName = A.name ∨ tf.TypeName = B.name) ∧
    ((findChildNodesForType d s []).map TypeField.TypeName).Nodup ∧
    (∃ tf ∈ findChildNodesForType d s [], tf.TypeName = A.name ∧ tf.FieldNames.Nodup ∧
      ∀ f, f ∈ tf.FieldNames ↔
        f ∈ (NodeFieldDefinitions d A).map (FieldDefinitionNameString d)) ∧
    (∃ tf ∈ findChildNodesForType d s [], tf.TypeName = B.name ∧ tf.FieldNames.Nodup ∧
      ∀ f, f ∈ tf.FieldNames ↔
        f ∈ (NodeFieldDefinitions d B).map (FieldDefinitionNameString d)) := by
  have hlookA : FirstNodeByNameStr d A.name = some A := by
    rw [FirstNodeByNameStr, hroot]
    rw [List.find?_cons_of_pos _ (by simp [hAkind])]
  have hlookB : FirstNodeByNameStr d B.name = some B := by
    rw [FirstNodeByNameStr, hroot]
    rw [List.find?_cons_of_neg _ (by simp [hAB]),
      List.find?_cons_of_pos _ (by simp [hBkind])]
  have hdocp : ∀ t f, (t, f) ∈ docPairsList d →
      (t = A.name ∧ f ∈ (NodeFieldDefinitions d A).map (FieldDefinitionNameString d)) ∨
      (t = B.name ∧ f ∈ (NodeFieldDefinitions d B).map (FieldDefinitionNameString d)) := by
    intro t f h
    rw [docPairsList, hroot] at h
    simp only [List.flatMap_cons, List.flatMap_nil, List.append_nil,
      List.mem_append] at h
    rcases h with h | h
    · obtain ⟨ref, href, heq⟩ := List.mem_map.mp h
      rw [Prod.mk.injEq] at heq
      exact Or.inl ⟨heq.1.symm, heq.2 ▸ List.mem_map_of_mem _ href⟩
    · obtain ⟨ref, href, heq⟩ := List.mem_map.mp h
      rw [Prod.mk.injEq] at heq
      exact Or.inr ⟨heq.1.symm, heq.2 ▸ List.mem_map_of_mem _ href⟩
  refine ⟨fun fuel hf => (findChild_eq_walkFuel d s [] fuel hf).symm, ?_⟩
  rcases hs with hs | hs
  · obtain ⟨honly, hnd, hXrec, hYrec⟩ :=
      childWalk_two_type_cycle d A B s hs hlookA hlookB hAB hAnodup
        refA hrefA htA refB hrefB hdocp
    exact ⟨honly, hnd, hXrec, hYrec⟩
  · obtain ⟨honly, hnd, hXrec, hYrec⟩ :=
      childWalk_two_type_cycle d B A s hs hlookB hlookA (fun hh => hAB hh.symm) hBnodup
        refB hrefB htB refA hrefA (fun t f h => (hdocp t f h).symm)
    exact ⟨fun tf htf => (honly tf htf).symm, hnd, hYrec, hXrec⟩

/-- Witness for C1: the concrete cyclic schema `type A { a: B, c: S }`,
`type B { b: A }`, starting the child collection at `A`. -/
theorem c1_cycle_child_collection_witness :
    (exCycleDoc.rootNodes = [exNodeA, exNodeB] ∧
     exNodeA.kind = NodeKind.objectTypeDefinition ∧
     exNodeB.kind = NodeKind.objectTypeDefinition ∧
     exNodeA.name ≠ exNodeB.name ∧
     ((NodeFieldDefinitions exCycleDoc exNodeA).map
        (FieldDefinitionNameString exCycleDoc)).Nodup ∧
     ((NodeFieldDefinitions exCycleDoc exNodeB).map
        (FieldDefinitionNameString exCycleDoc)).Nodup ∧
     0 ∈ NodeFieldDefinitions exCycleDoc exNodeA ∧
     FieldDefinitionTypeNodeName exCycleDoc 0 = exNodeB.name ∧
     2 ∈ NodeFieldDefinitions exCycleDoc exNodeB ∧
     FieldDefinitionTypeNodeName exCycleDoc 2 = exNodeA.name ∧
     ("A" = exNodeA.name ∨ "A" = exNodeB.name)) ∧
    ((∀ fuel, phi exCycleDoc [("A", 0)] [] < fuel →
        walkFuel exCycleDoc fuel [("A", 0)] [] = findChildNodesForType exCycleDoc "A" []) ∧
     (∀ tf ∈ findChildNodesForType exCycleDoc "A" [],
        tf.TypeName = exNodeA.name ∨ tf.TypeName = exNodeB.name) ∧
     ((findChildNodesForType exCycleDoc "A" []).map TypeField.TypeName).Nodup ∧
     (∃ tf ∈ findChildNodesForType exCycleDoc "A" [],
        tf.TypeName = exNodeA.name ∧ tf.FieldNames.Nodup ∧
        ∀ f, f ∈ tf.FieldNames ↔
          f ∈ (NodeFieldDefinitions exCycleDoc exNodeA).map
            (FieldDefinitionNameString exCycleDoc)) ∧
     (∃ tf ∈ findChildNodesForType exCycleDoc "A" [],
        tf.TypeName = exNodeB.name ∧ tf.FieldNames.Nodup ∧
        ∀ f, f ∈ tf.FieldNames ↔
          f ∈ (NodeFieldDefinitions exCycleDoc exNodeB).map
            (FieldDefinitionNameString exCycleDoc))) :=
  ⟨⟨by decide, by decide, by decide, by decide, by decide, by decide, by decide,
    by decide, by decide, by decide, by decide⟩,
   c1_cycle_child_collection exCycleDoc exNodeA exNodeB "A" (by decide) (by decide)
     (by decide) (by decide) (by decide) (by decide) 0 (by decide) (by decide)
     2 (by decide) (by decide) (by decide)⟩

/-- C2 counterexample: the claim "no two TypeField records in the same
result list have the same TypeName" fails for the root list: on a document
declaring `type X @key { a }` and `extend type X @key { b }`,
`addRootNodes` runs once per top-level node and emits two root records
both named `X`. -/
theorem c2_counterexample :
    ¬ (((GetAllNodes noExternals exDupRootDoc).1.map TypeField.TypeName).Nodup) := by
  decide

/-- C2 (amended): the child list returned by `GetAllNodes` never contains
two `TypeField` records with the same `TypeName` — a single record
accumulates all discovered field names of a type; the root list may
contain one record per qualifying top-level node, so a type declared both
as a definition and as an extension can appear twice there. -/
theorem c2_child_list_unique_type_names (e : Externals) (d : Document) :
    (((GetAllNodes e d).2).map TypeField.TypeName).Nodup := by
  have h := getAllChildNodes_pres d Good
    (fun cn t hg => findChild_good d t cn hg) good_nil (getAllRootNodes e d)
  simpa [GetAllNodes] using h.1

/-- C3 counterexample: the Base Schema Resolver is not invoked exactly
once per extraction call: on a document with two top-level object type
definitions, root collection invokes `baseSchema` twice (once per
processed node), because `addRootNodes` rebuilds the base schema at each
call. -/
theorem c3_counterexample :
    (getAllRootNodesCounted noExternals exCycleDoc).2 ≠ 1 := by
  decide

/-- C3 (amended): per extraction call, the Base Schema Resolver pipeline
is invoked exactly once per top-level object type definition or extension
node processed during root collection — `k` invocations for `k` such
nodes, not one invocation per call — and the instrumented root collection
computes the same root set as the plain one. -/
theorem c3_resolver_invocations (e : Externals) (d : Document) :
    (getAllRootNodesCounted e d).2 = d.rootNodes.countP isProcessedKind ∧
    (getAllRootNodesCounted e d).1 = getAllRootNodes e d := by
  rw [getAllRootNodesCounted_eq]
  exact ⟨rfl, rfl⟩

/-- C4: for every structurally valid input document (no type declares a
field name twice, top-level type names are pairwise distinct) and every
top-level type, a field of that type carrying a directive named
`external` never appears in that type's `FieldNames` in the root set
returned by `GetAllNodes`. -/
theorem c4_external_field_not_in_root (e : Externals) (d : Document)
    (hvalid : nodupFieldNamesPerNode d)
    (hnames : (d.rootNodes.map Node.name).Nodup)
    (node : Node) (hnode : node ∈ d.rootNodes)
    (ref : Nat) (href : ref ∈ NodeFieldDefinitions d node)
    (hext : FieldDefinitionHasNamedDirective d ref federationExternalDirectiveName = true)
    (tf : TypeField) (htf : tf ∈ (GetAllNodes e d).1)
    (htn : tf.TypeName = NodeNameString d node) :
    FieldDefinitionNameString d ref ∉ tf.FieldNames := by
  intro hmem
  have h1 : tf ∈ getAllRootNodes e d := by simpa [GetAllNodes] using htf
  obtain ⟨n', hn', -, -, -, htf'⟩ := (mem_getAllRootNodes e d tf).mp h1
  have hnn : n' = node := by
    apply nodup_map_inj d.rootNodes Node.name hnames n' node hn' hnode
    have h2 : tf.TypeName = NodeNameString d n' := by rw [htf']
    exact h2.symm.trans htn
  subst hnn
  rw [htf'] at hmem
  simp only at hmem
  rw [nonExternalFieldNames] at hmem
  obtain ⟨ref', href', hg⟩ := List.mem_filterMap.mp hmem
  by_cases hx : FieldDefinitionHasNamedDirective d ref'
      federationExternalDirectiveName = true
  · rw [if_pos hx] at hg
    cases hg
  · rw [if_neg hx] at hg
    injection hg with hname
    have heq : ref' = ref :=
      nodup_map_inj (NodeFieldDefinitions d n') (FieldDefinitionNameString d)
        (hvalid n' hn') ref' ref href' href hname
    rw [heq] at hx
    exact hx hext

/-- Witness for C4: in `type X @key { a, secret @external }`, the field
`secret` does not appear in `X`'s root record. -/
theorem c4_external_field_not_in_root_witness :
    (nodupFieldNamesPerNode exEntityDoc ∧
     (exEntityDoc.rootNodes.map Node.name).Nodup ∧
     exNodeX ∈ exEntityDoc.rootNodes ∧
     1 ∈ NodeFieldDefinitions exEntityDoc exNodeX ∧
     FieldDefinitionHasNamedDirective exEntityDoc 1 federationExternalDirectiveName = true ∧
     (⟨"X", ["a"]⟩ : TypeField) ∈ (GetAllNodes noExternals exEntityDoc).1 ∧
     (⟨"X", ["a"]⟩ : TypeField).TypeName = NodeNameString exEntityDoc exNodeX) ∧
    FieldDefinitionNameString exEntityDoc 1 ∉ (⟨"X", ["a"]⟩ : TypeField).FieldNames :=
  ⟨⟨by simp only [nodupFieldNamesPerNode]; decide, by decide, by decide, by decide,
    by decide, by decide, by decide⟩,
   c4_external_field_not_in_root noExternals exEntityDoc
     (by simp only [nodupFieldNamesPerNode]; decide) (by decide)
     exNodeX (by decide) 1 (by decide) (by decide) ⟨"X", ["a"]⟩ (by decide) (by decide)⟩

/-- C5: when base-schema resolution fails (the resolver yields no
document), every processed top-level type carrying a `key` directive with
at least one non-external field still appears in the root set with its
non-external fields; the failure is not propagated — `GetAllNodes` is
total and still returns its pair of result lists. -/
theorem c5_entity_included_on_resolver_failure (e : Externals) (d : Document)
    (_hfail : baseSchema e d = none) (node : Node) (hnode : node ∈ d.rootNodes)
    (hkind : isProcessedKind node = true) (hent : isEntity d node = true)
    (hne : nonExternalFieldNames d node ≠ []) :
    ∃ tf ∈ (GetAllNodes e d).1, tf.TypeName = NodeNameString d node ∧
      tf.FieldNames = nonExternalFieldNames d node := by
  have hq : qualifies e d node = true := by simp [qualifies, hent]
  have hmem := (mem_getAllRootNodes e d
    { TypeName := NodeNameString d node,
      FieldNames := nonExternalFieldNames d node }).mpr
    ⟨node, hnode, hkind, hq, hne, rfl⟩
  exact ⟨_, by simpa [GetAllNodes] using hmem, rfl, rfl⟩

/-- Witness for C5: with the always-failing resolver, the entity `X`
appears in the root set with its non-external field `a`. -/
theorem c5_entity_included_on_resolver_failure_witness :
    (baseSchema noExternals exEntityDoc = none ∧
     exNodeX ∈ exEntityDoc.rootNodes ∧
     isProcessedKind exNodeX = true ∧
     isEntity exEntityDoc exNodeX = true ∧
     nonExternalFieldNames exEntityDoc exNodeX ≠ []) ∧
    (∃ tf ∈ (GetAllNodes noExternals exEntityDoc).1,
      tf.TypeName = NodeNameString exEntityDoc exNodeX ∧
      tf.FieldNames = nonExternalFieldNames exEntityDoc exNodeX) :=
  ⟨⟨by decide, by decide, by decide, by decide, by decide⟩,
   c5_entity_included_on_resolver_failure noExternals exEntityDoc (by decide)
     exNodeX (by decide) (by decide) (by decide) (by decide)⟩

/-- C6: no `TypeField` in the root set returned by `GetAllNodes` has an
empty `FieldNames` list — a qualifying type whose filtered list is empty
is skipped entirely. -/
theorem c6_root_field_names_nonempty (e : Externals) (d : Document) (tf : TypeField)
    (htf : tf ∈ (GetAllNodes e d).1) : tf.FieldNames ≠ [] := by
  have h1 : tf ∈ getAllRootNodes e d := by simpa [GetAllNodes] using htf
  obtain ⟨n', -, -, -, hne', htf'⟩ := (mem_getAllRootNodes e d tf).mp h1
  rw [htf']
  exact hne'

/-- Witness for C6: the root record of the entity example has the
non-empty field list `[a]`. -/
theorem c6_root_field_names_nonempty_witness :
    (⟨"X", ["a"]⟩ : TypeField) ∈ (GetAllNodes noExternals exEntityDoc).1 ∧
    (⟨"X", ["a"]⟩ : TypeField).FieldNames ≠ [] :=
  ⟨by decide,
   c6_root_field_names_nonempty noExternals exEntityDoc ⟨"X", ["a"]⟩ (by decide)⟩

/-- C7: for every structurally valid input document (no type declares a
field name twice) and every `TypeField` in either result list of
`GetAllNodes`, `FieldNames` contains each field name at most once, even
when multiple traversal paths reach the same `(type, field)` pair. -/
theorem c7_field_names_nodup (e : Externals) (d : Document)
    (hvalid : nodupFieldNamesPerNode d) (tf : TypeField)
    (htf : tf ∈ (GetAllNodes e d).1 ∨ tf ∈ (GetAllNodes e d).2) :
    tf.FieldNames.Nodup := by
  rcases htf with htf | htf
  · have h1 : tf ∈ getAllRootNodes e d := by simpa [GetAllNodes] using htf
    obtain ⟨n', hn', -, -, -, htf'⟩ := (mem_getAllRootNodes e d tf).mp h1
    rw [htf']
    exact List.Nodup.sublist (nonExternalFieldNames_sublist d n') (hvalid n' hn')
  · have h2 : tf ∈ getAllChildNodes d (getAllRootNodes e d) := by
      simpa [GetAllNodes] using htf
    have hg := getAllChildNodes_pres d Good
      (fun cn t hgg => findChild_good d t cn hgg) good_nil (getAllRootNodes e d)
    exact (hg.2 tf h2).1

/-- Witness for C7: the child record of the cyclic example type `A` has
duplicate-free field names. -/
theorem c7_field_names_nodup_witness :
    (nodupFieldNamesPerNode exCycleDoc ∧
     (⟨"A", ["a", "c"]⟩ : TypeField) ∈ (GetAllNodes noExternals exCycleDoc).2) ∧
    (⟨"A", ["a", "c"]⟩ : TypeField).FieldNames.Nodup :=
  ⟨⟨by simp only [nodupFieldNamesPerNode]; decide, by decide⟩,
   c7_field_names_nodup noExternals exCycleDoc
     (by simp only [nodupFieldNamesPerNode]; decide) ⟨"A", ["a", "c"]⟩
     (Or.inr (by decide))⟩

/-- C8: the child set returned by `GetAllNodes` is not filtered by the
external-field predicate: for every child record whose type name resolves
to a node, every declared field of that node — with no hypothesis on its
directives, so in particular every field carrying `external` — is
collected into the record's `FieldNames`. -/
theorem c8_child_collects_all_fields (e : Externals) (d : Document)
    (tf : TypeField) (htf : tf ∈ (GetAllNodes e d).2)
    (node : Node) (hlook : FirstNodeByNameStr d tf.TypeName = some node)
    (ref : Nat) (href : ref ∈ NodeFieldDefinitions d node) :
    FieldDefinitionNameString d ref ∈ tf.FieldNames := by
  have h2 : tf ∈ getAllChildNodes d (getAllRootNodes e d) := by
    simpa [GetAllNodes] using htf
  have hcomp : childComplete d (getAllChildNodes d (getAllRootNodes e d)) :=
    getAllChildNodes_pres d (childComplete d)
      (fun cn t hc => findChild_complete d t cn hc) (childComplete_nil d)
      (getAllRootNodes e d)
  have hreg := hcomp tf h2 node hlook ref href
  have hgood : Good (getAllChildNodes d (getAllRootNodes e d)) :=
    getAllChildNodes_pres d Good (fun cn t hgg => findChild_good d t cn hgg)
      good_nil (getAllRootNodes e d)
  obtain ⟨tf', htf', htn', hmem'⟩ := registered_mem _ _ _ hreg
  have heq : tf' = tf :=
    nodup_map_inj _ TypeField.TypeName hgood.1 tf' tf htf' h2 (by rw [htn'])
  rw [← heq]
  exact hmem'

/-- Witness for C8: in the entity example, the external field `secret` is
collected into `X`'s child record. -/
theorem c8_child_collects_all_fields_witness :
    ((⟨"X", ["a", "secret"]⟩ : TypeField) ∈ (GetAllNodes noExternals exEntityDoc).2 ∧
     FirstNodeByNameStr exEntityDoc
       (⟨"X", ["a", "secret"]⟩ : TypeField).TypeName = some exNodeX ∧
     1 ∈ NodeFieldDefinitions exEntityDoc exNodeX) ∧
    FieldDefinitionNameString exEntityDoc 1 ∈
      (⟨"X", ["a", "secret"]⟩ : TypeField).FieldNames :=
  ⟨⟨by decide, by decide, by decide⟩,
   c8_child_collects_all_fields noExternals exEntityDoc ⟨"X", ["a", "secret"]⟩
     (by decide) exNodeX (by decide) 1 (by decide)⟩

/-- C9: `GetAllNodes` leaves the input document unchanged — threading the
extractor's document through every access of root collection, base-schema
resolution (whose only in-place merge is applied to a locally parsed
document) and the child walk returns the document exactly as given,
together with the pair of result lists, which is the only state the
caller observes. -/
theorem c9_document_read_only (e : Externals) (d : Document) :
    GetAllNodesTracked e d = (GetAllNodes e d, d) := by
  simp [GetAllNodesTracked, GetAllNodes, getAllRootNodesTracked_eq,
    getAllChildNodesTracked_eq]

/-- C10: during `getAllChildNodes`, a root field name that is not among
the resolved node's field definition names is not skipped: the map lookup
yields the zero field reference `0`, and the per-field step descends into
the declared return type of the document's field definition with
reference `0`. -/
theorem c10_missing_field_name_defaults_to_ref_zero (d : Document) (node : Node)
    (fieldName : String)
    (hmiss : fieldName ∉ (NodeFieldDefinitions d node).map (FieldDefinitionNameString d))
    (cn : List TypeField) :
    fieldNameToRef d node fieldName = 0 ∧
      childWalkStep d node cn fieldName =
        findChildNodesForType d (FieldDefinitionTypeNodeName d 0) cn := by
  have h0 : fieldNameToRef d node fieldName = 0 := by
    rw [fieldNameToRef]
    have hnone : (((NodeFieldDefinitions d node).map
        fun r => (FieldDefinitionNameString d r, r)).reverse.find?
          fun p => p.1 == fieldName) = none := by
      rw [List.find?_eq_none]
      intro p hp
      rw [List.mem_reverse] at hp
      obtain ⟨r, hr, heq⟩ := List.mem_map.mp hp
      intro hbeq
      rw [← heq] at hbeq
      simp only [beq_iff_eq] at hbeq
      exact hmiss (hbeq ▸ List.mem_map_of_mem _ hr)
    rw [hnone]
  refine ⟨h0, ?_⟩
  simp only [childWalkStep, h0]

/-- Witness for C10: looking up the name `ghost`, which `X` does not
declare, yields reference `0`, and the step walks the return type of
field definition `0`. -/
theorem c10_missing_field_name_defaults_to_ref_zero_witness :
    ("ghost" ∉ (NodeFieldDefinitions exEntityDoc exNodeX).map
      (FieldDefinitionNameString exEntityDoc)) ∧
    (fieldNameToRef exEntityDoc exNodeX "ghost" = 0 ∧
      childWalkStep exEntityDoc exNodeX [] "ghost" =
        findChildNodesForType exEntityDoc
          (FieldDefinitionTypeNodeName exEntityDoc 0) []) :=
  ⟨by decide,
   c10_missing_field_name_defaults_to_ref_zero exEntityDoc exNodeX "ghost"
     (by decide) []⟩

end Plan
